import Mathlib

/-!
# hashing-demo: the streaming FarmHash and its whole-buffer reference

A shallow embedding of `src/farmhash.h` (the incremental `hashing::farmhash`)
and of `src/farmhash-direct.h` (`hashing::direct::farmhash::Hash64`), and of
the class `fnv1a` of `src/fnv1a.h`.

Conventions of the embedding.

* A `uint64_t` is a `Nat`; every addition, multiplication and left shift of
  the source is followed by `% 2 ^ 64` (`% 2 ^ 32` for `uint32_t`).
* A byte is a `Nat` (well-formed bytes are below 256).
* A `const unsigned char*` / `const char*` is a `Ptr`: the function giving the
  byte stored at each offset from the pointer.  Pointer arithmetic `s + k`
  is kept as an explicit offset argument `k`.
* `buffer_`, declared `uint64_t buffer_[8]` and accessed both as bytes and as
  words, is a `Ptr`; `buffer_[i]` is the little-endian word at byte `8 * i`.
* `buffer_next_` is the offset of the pointer from the start of `buffer_`.
* `state_type` carries one ghost field, `trace_`, that records the calls of
  `initialize`, `mix` and `final_mix` made since the `farmhash` was constructed;
  no computation reads it.
* The two loops take a `fuel` argument that bounds their passes; the callers
  pass the input length, and the theorems below show that this is enough.
-/

namespace hashing

/-- Memory seen from a byte pointer: the byte at each offset. -/
abbrev Ptr := Nat → Nat

/-- The memory of a byte sequence; offsets past its end read as 0 (the source
never reads them). -/
def Ptr.ofList (S : List Nat) : Ptr := fun i => S.getD i 0

/-- The call `memcpy(dst_base + dst, src, n)`: bytes `dst .. dst + n - 1` of
the destination receive `src[0 .. n - 1]`. -/
def memcpy (dst_base : Ptr) (dst : Nat) (src : List Nat) (n : Nat) : Ptr :=
  fun i => if dst ≤ i ∧ i < dst + n then src.getD (i - dst) 0 else dst_base i

/-- The call `std::rotate(base, base + middle, base + last)`: the element at
`middle` becomes the first one. -/
def std_rotate (base : Ptr) (middle last : Nat) : Ptr :=
  fun i => if i < last then
      (if i + middle < last then base (i + middle) else base (i + middle - last))
    else base i

/-! ## `src/farmhash-direct.h` -/

namespace direct
namespace farmhash

def k0 : Nat := 0xc3a5c85c97cb3127
def k1 : Nat := 0xb492b66fbe98f273
def k2 : Nat := 0x9ae16a3b2f90404f

/-- The function `Fetch`: the 8 bytes at `p + off` as a little-endian word. -/
def Fetch (p : Ptr) (off : Nat) : Nat :=
  (p off + p (off + 1) * 2 ^ 8 + p (off + 2) * 2 ^ 16 + p (off + 3) * 2 ^ 24
    + p (off + 4) * 2 ^ 32 + p (off + 5) * 2 ^ 40 + p (off + 6) * 2 ^ 48
    + p (off + 7) * 2 ^ 56) % 2 ^ 64

def Fetch32 (p : Ptr) (off : Nat) : Nat :=
  (p off + p (off + 1) * 2 ^ 8 + p (off + 2) * 2 ^ 16 + p (off + 3) * 2 ^ 24) % 2 ^ 32

def Rotate (val : Nat) (shift : Nat) : Nat :=
  if shift = 0 then val else (val >>> shift) ||| ((val <<< (64 - shift)) % 2 ^ 64)

def ShiftMix (val : Nat) : Nat := val ^^^ (val >>> 47)

def HashLen16 (u v mul : Nat) : Nat :=
  let a := ((u ^^^ v) * mul) % 2 ^ 64
  let a := a ^^^ (a >>> 47)
  let b := ((v ^^^ a) * mul) % 2 ^ 64
  let b := b ^^^ (b >>> 47)
  let b := (b * mul) % 2 ^ 64
  b

def HashLen0to16 (s : Ptr) (len : Nat) : Nat :=
  if len ≥ 8 then
    let mul := (k2 + len * 2) % 2 ^ 64
    let a := (Fetch s 0 + k2) % 2 ^ 64
    let b := Fetch s (len - 8)
    let c := (Rotate b 37 * mul + a) % 2 ^ 64
    let d := ((Rotate a 25 + b) * mul) % 2 ^ 64
    HashLen16 c d mul
  else if len ≥ 4 then
    let mul := (k2 + len * 2) % 2 ^ 64
    let a := Fetch32 s 0
    HashLen16 ((len + (a <<< 3) % 2 ^ 64) % 2 ^ 64) (Fetch32 s (len - 4)) mul
  else if len > 0 then
    let a := s 0 % 2 ^ 8
    let b := s (len >>> 1) % 2 ^ 8
    let c := s (len - 1) % 2 ^ 8
    let y := (a + (b <<< 8) % 2 ^ 32) % 2 ^ 32
    let z := (len + (c <<< 2) % 2 ^ 32) % 2 ^ 32
    (ShiftMix (((y * k2) % 2 ^ 64) ^^^ ((z * k0) % 2 ^ 64)) * k2) % 2 ^ 64
  else k2

def HashLen17to32 (s : Ptr) (len : Nat) : Nat :=
  let mul := (k2 + len * 2) % 2 ^ 64
  let a := (Fetch s 0 * k1) % 2 ^ 64
  let b := Fetch s 8
  let c := (Fetch s (len - 8) * mul) % 2 ^ 64
  let d := (Fetch s (len - 16) * k2) % 2 ^ 64
  HashLen16 ((Rotate ((a + b) % 2 ^ 64) 43 + Rotate c 30 + d) % 2 ^ 64)
    ((a + Rotate ((b + k2) % 2 ^ 64) 18 + c) % 2 ^ 64) mul

/-- The six-argument overload of `WeakHashLen32WithSeeds`. -/
def WeakHashLen32WithSeeds6 (w x y z a b : Nat) : Nat × Nat :=
  let a := (a + w) % 2 ^ 64
  let b := Rotate ((b + a + z) % 2 ^ 64) 21
  let c := a
  let a := (a + x) % 2 ^ 64
  let a := (a + y) % 2 ^ 64
  let b := (b + Rotate a 44) % 2 ^ 64
  ((a + z) % 2 ^ 64, (b + c) % 2 ^ 64)

/-- The pointer overload of `WeakHashLen32WithSeeds`, at `s + off`. -/
def WeakHashLen32WithSeeds (s : Ptr) (off : Nat) (a b : Nat) : Nat × Nat :=
  WeakHashLen32WithSeeds6 (Fetch s off) (Fetch s (off + 8)) (Fetch s (off + 16))
    (Fetch s (off + 24)) a b

def HashLen33to64 (s : Ptr) (len : Nat) : Nat :=
  let mul := (k2 + len * 2) % 2 ^ 64
  let a := (Fetch s 0 * k2) % 2 ^ 64
  let b := Fetch s 8
  let c := (Fetch s (len - 8) * mul) % 2 ^ 64
  let d := (Fetch s (len - 16) * k2) % 2 ^ 64
  let y := (Rotate ((a + b) % 2 ^ 64) 43 + Rotate c 30 + d) % 2 ^ 64
  let z := HashLen16 y ((a + Rotate ((b + k2) % 2 ^ 64) 18 + c) % 2 ^ 64) mul
  let e := (Fetch s 16 * mul) % 2 ^ 64
  let f := Fetch s 24
  let g := ((y + Fetch s (len - 32)) * mul) % 2 ^ 64
  let h := ((z + Fetch s (len - 24)) * mul) % 2 ^ 64
  HashLen16 ((Rotate ((e + f) % 2 ^ 64) 43 + Rotate g 30 + h) % 2 ^ 64)
    ((e + Rotate ((f + a) % 2 ^ 64) 18 + g) % 2 ^ 64) mul

/-- The local variables `x, y, z, v, w` of `Hash64`. -/
structure Locals where
  x : Nat
  y : Nat
  z : Nat
  v : Nat × Nat
  w : Nat × Nat
deriving DecidableEq, Repr

/-- Lines 157-162 of `Hash64`: the locals before the loop. -/
def Hash64.init (s : Ptr) : Locals :=
  let seed := 81
  let x := seed
  let y := (seed * k1 + 113) % 2 ^ 64
  let z := (ShiftMix ((y * k2 + 113) % 2 ^ 64) * k2) % 2 ^ 64
  let x := (x * k2 + Fetch s 0) % 2 ^ 64
  { x := x, y := y, z := z, v := (0, 0), w := (0, 0) }

/-- One pass through the body of the `do ... while` loop of `Hash64`, with the
moving pointer `s` at offset `p` (the increment `s += 64` is in `Hash64.loop`). -/
def Hash64.body (s : Ptr) (p : Nat) (l : Locals) : Locals :=
  let x := (Rotate ((l.x + l.y + l.v.1 + Fetch s (p + 8)) % 2 ^ 64) 37 * k1) % 2 ^ 64
  let y := (Rotate ((l.y + l.v.2 + Fetch s (p + 48)) % 2 ^ 64) 42 * k1) % 2 ^ 64
  let x := x ^^^ l.w.2
  let y := (y + l.v.1 + Fetch s (p + 40)) % 2 ^ 64
  let z := (Rotate ((l.z + l.w.1) % 2 ^ 64) 33 * k1) % 2 ^ 64
  let v := WeakHashLen32WithSeeds s p ((l.v.2 * k1) % 2 ^ 64) ((x + l.w.1) % 2 ^ 64)
  let w := WeakHashLen32WithSeeds s (p + 32) ((z + l.w.2) % 2 ^ 64)
    ((y + Fetch s (p + 16)) % 2 ^ 64)
  { x := z, y := y, z := x, v := v, w := w }

/-- The loop `do { body; s += 64; } while (s != end)`; `fuel` bounds the number
of passes and the result carries the final offset of `s`. -/
def Hash64.loop (s : Ptr) (end_ : Nat) : Nat → Nat → Locals → Locals × Nat
  | 0, p, l => (l, p)
  | fuel + 1, p, l =>
    let l := Hash64.body s p l
    let p := p + 64
    if p ≠ end_ then Hash64.loop s end_ fuel p l else (l, p)

/-- Lines 179-195 of `Hash64`: the last round, on the 64 bytes at `last64`. -/
def Hash64.final (s : Ptr) (last64 : Nat) (len : Nat) (l : Locals) : Nat :=
  let mul := (k1 + ((l.z &&& 0xff) <<< 1) % 2 ^ 64) % 2 ^ 64
  let p := last64
  let wfst := (l.w.1 + ((len - 1) &&& 63)) % 2 ^ 64
  let vfst := (l.v.1 + wfst) % 2 ^ 64
  let wfst := (wfst + vfst) % 2 ^ 64
  let x := (Rotate ((l.x + l.y + vfst + Fetch s (p + 8)) % 2 ^ 64) 37 * mul) % 2 ^ 64
  let y := (Rotate ((l.y + l.v.2 + Fetch s (p + 48)) % 2 ^ 64) 42 * mul) % 2 ^ 64
  let x := x ^^^ ((l.w.2 * 9) % 2 ^ 64)
  let y := (y + vfst * 9 + Fetch s (p + 40)) % 2 ^ 64
  let z := (Rotate ((l.z + wfst) % 2 ^ 64) 33 * mul) % 2 ^ 64
  let v := WeakHashLen32WithSeeds s p ((l.v.2 * mul) % 2 ^ 64) ((x + wfst) % 2 ^ 64)
  let w := WeakHashLen32WithSeeds s (p + 32) ((z + l.w.2) % 2 ^ 64)
    ((y + Fetch s (p + 16)) % 2 ^ 64)
  -- std::swap(z, x): from here on `z` is read as `x` and `x` as `z`
  HashLen16 ((HashLen16 v.1 w.1 mul + (ShiftMix y * k0) % 2 ^ 64 + x) % 2 ^ 64)
    ((HashLen16 v.2 w.2 mul + z) % 2 ^ 64) mul

/-- The function `Hash64(s, len)`.  The loop runs at most `len` times. -/
def Hash64 (s : Ptr) (len : Nat) : Nat :=
  if len ≤ 32 then
    if len ≤ 16 then HashLen0to16 s len else HashLen17to32 s len
  else if len ≤ 64 then HashLen33to64 s len
  else
    let l := Hash64.init s
    let end_ := ((len - 1) / 64) * 64
    let last64 := end_ + ((len - 1) &&& 63) - 63
    let r := Hash64.loop s end_ len 0 l
    Hash64.final s last64 len r.1

end farmhash
end direct

/-! ## `src/farmhash.h` -/

/-- Ghost record of a call of one of the three stateful methods of
`farmhash::state_type`. -/
inductive Call where
  | initialize_
  | mix_
  | final_mix_
deriving DecidableEq, Repr

/-- The class `farmhash::state_type`; `trace_` is ghost. -/
structure farmhash.state_type where
  x_ : Nat
  y_ : Nat
  z_ : Nat
  v_ : Nat × Nat
  w_ : Nat × Nat
  buffer_ : Ptr
  trace_ : List Call

/-- The class `farmhash`: `state_` is the pointed-to state, `buffer_next_` the
offset of the write pointer in `state_->buffer_`. -/
structure farmhash where
  state_ : farmhash.state_type
  buffer_next_ : Nat
  mixed_ : Bool

namespace farmhash

/-- The constructor `farmhash(state_type* s)`.  The constructor of `state_type`
leaves every member uninitialised, so the members of `s` are arbitrary; the
ghost trace starts empty. -/
def ctor (s : state_type) : farmhash :=
  { state_ := { s with trace_ := [] }, buffer_next_ := 0, mixed_ := false }

namespace state_type

def k0 : Nat := 0xc3a5c85c97cb3127
def k1 : Nat := 0xb492b66fbe98f273
def k2 : Nat := 0x9ae16a3b2f90404f
def kSeed : Nat := 81

def Fetch64 (p : Ptr) (off : Nat) : Nat :=
  (p off + p (off + 1) * 2 ^ 8 + p (off + 2) * 2 ^ 16 + p (off + 3) * 2 ^ 24
    + p (off + 4) * 2 ^ 32 + p (off + 5) * 2 ^ 40 + p (off + 6) * 2 ^ 48
    + p (off + 7) * 2 ^ 56) % 2 ^ 64

def Fetch32 (p : Ptr) (off : Nat) : Nat :=
  (p off + p (off + 1) * 2 ^ 8 + p (off + 2) * 2 ^ 16 + p (off + 3) * 2 ^ 24) % 2 ^ 32

def ShiftMix (val : Nat) : Nat := val ^^^ (val >>> 47)

def Rotate (val : Nat) (shift : Nat) : Nat :=
  if shift = 0 then val else (val >>> shift) ||| ((val <<< (64 - shift)) % 2 ^ 64)

def HashLen16 (u v mul : Nat) : Nat :=
  let a := ((u ^^^ v) * mul) % 2 ^ 64
  let a := a ^^^ (a >>> 47)
  let b := ((v ^^^ a) * mul) % 2 ^ 64
  let b := b ^^^ (b >>> 47)
  let b := (b * mul) % 2 ^ 64
  b

def HashLen0to16 (s : Ptr) (len : Nat) : Nat :=
  if len ≥ 8 then
    let mul := (k2 + len * 2) % 2 ^ 64
    let a := (Fetch64 s 0 + k2) % 2 ^ 64
    let b := Fetch64 s (len - 8)
    let c := (Rotate b 37 * mul + a) % 2 ^ 64
    let d := ((Rotate a 25 + b) * mul) % 2 ^ 64
    HashLen16 c d mul
  else if len ≥ 4 then
    let mul := (k2 + len * 2) % 2 ^ 64
    let a := Fetch32 s 0
    HashLen16 ((len + (a <<< 3) % 2 ^ 64) % 2 ^ 64) (Fetch32 s (len - 4)) mul
  else if len > 0 then
    let a := s 0 % 2 ^ 8
    let b := s (len >>> 1) % 2 ^ 8
    let c := s (len - 1) % 2 ^ 8
    let y := (a + (b <<< 8) % 2 ^ 32) % 2 ^ 32
    let z := (len + (c <<< 2) % 2 ^ 32) % 2 ^ 32
    (ShiftMix (((y * k2) % 2 ^ 64) ^^^ ((z * k0) % 2 ^ 64)) * k2) % 2 ^ 64
  else k2

def HashLen17to32 (s : Ptr) (len : Nat) : Nat :=
  let mul := (k2 + len * 2) % 2 ^ 64
  let a := (Fetch64 s 0 * k1) % 2 ^ 64
  let b := Fetch64 s 8
  let c := (Fetch64 s (len - 8) * mul) % 2 ^ 64
  let d := (Fetch64 s (len - 16) * k2) % 2 ^ 64
  HashLen16 ((Rotate ((a + b) % 2 ^ 64) 43 + Rotate c 30 + d) % 2 ^ 64)
    ((a + Rotate ((b + k2) % 2 ^ 64) 18 + c) % 2 ^ 64) mul

def HashLen33to64 (s : Ptr) (len : Nat) : Nat :=
  let mul := (k2 + len * 2) % 2 ^ 64
  let a := (Fetch64 s 0 * k2) % 2 ^ 64
  let b := Fetch64 s 8
  let c := (Fetch64 s (len - 8) * mul) % 2 ^ 64
  let d := (Fetch64 s (len - 16) * k2) % 2 ^ 64
  let y := (Rotate ((a + b) % 2 ^ 64) 43 + Rotate c 30 + d) % 2 ^ 64
  let z := HashLen16 y ((a + Rotate ((b + k2) % 2 ^ 64) 18 + c) % 2 ^ 64) mul
  let e := (Fetch64 s 16 * mul) % 2 ^ 64
  let f := Fetch64 s 24
  let g := ((y + Fetch64 s (len - 32)) * mul) % 2 ^ 64
  let h := ((z + Fetch64 s (len - 24)) * mul) % 2 ^ 64
  HashLen16 ((Rotate ((e + f) % 2 ^ 64) 43 + Rotate g 30 + h) % 2 ^ 64)
    ((e + Rotate ((f + a) % 2 ^ 64) 18 + g) % 2 ^ 64) mul

/-- The function `WeakHashLen32WithSeeds(const uint64_t s[], a, b)`; `s i` is
the word `s[i]`. -/
def WeakHashLen32WithSeeds (s : Nat → Nat) (a b : Nat) : Nat × Nat :=
  let a := (a + s 0) % 2 ^ 64
  let b := Rotate ((b + a + s 3) % 2 ^ 64) 21
  let c := a
  let a := (a + s 1) % 2 ^ 64
  let a := (a + s 2) % 2 ^ 64
  let b := (b + Rotate a 44) % 2 ^ 64
  ((a + s 3) % 2 ^ 64, (b + c) % 2 ^ 64)

/-- The word `buffer_[i]`. -/
def word (st : state_type) (i : Nat) : Nat := Fetch64 st.buffer_ (8 * i)

end state_type

open state_type in
/-- The method `state_type::initialize()`. -/
def state_type.initialize (st : state_type) : state_type :=
  let x := kSeed
  let y := (kSeed * k1 + 113) % 2 ^ 64
  let z := (ShiftMix ((y * k2 + 113) % 2 ^ 64) * k2) % 2 ^ 64
  let x := (x * k2 + st.word 0) % 2 ^ 64
  { st with x_ := x, y_ := y, z_ := z, v_ := (0, 0), w_ := (0, 0),
            trace_ := st.trace_ ++ [Call.initialize_] }

namespace state_type

/-- The method `state_type::mix()`. -/
def mix (st : state_type) : state_type :=
  let x := (Rotate ((st.x_ + st.y_ + st.v_.1 + st.word 1) % 2 ^ 64) 37 * k1) % 2 ^ 64
  let y := (Rotate ((st.y_ + st.v_.2 + st.word 6) % 2 ^ 64) 42 * k1) % 2 ^ 64
  let x := x ^^^ st.w_.2
  let y := (y + st.v_.1 + st.word 5) % 2 ^ 64
  let z := (Rotate ((st.z_ + st.w_.1) % 2 ^ 64) 33 * k1) % 2 ^ 64
  let v := WeakHashLen32WithSeeds (fun i => st.word i) ((st.v_.2 * k1) % 2 ^ 64)
    ((x + st.w_.1) % 2 ^ 64)
  let w := WeakHashLen32WithSeeds (fun i => st.word (i + 4)) ((z + st.w_.2) % 2 ^ 64)
    ((y + st.word 2) % 2 ^ 64)
  -- std::swap(z_, x_)
  { st with x_ := z, y_ := y, z_ := x, v_ := v, w_ := w,
            trace_ := st.trace_ ++ [Call.mix_] }

/-- The method `state_type::final_mix(len)`: the returned hash and the state
it leaves behind.  The `size_t` subtraction `len - 1` wraps around at `len = 0`. -/
def final_mix (st : state_type) (len : Nat) : Nat × state_type :=
  let buffer : Ptr := std_rotate st.buffer_ len 64
  let mul : Nat := (k1 + ((st.z_ &&& 0xff) <<< 1) % 2 ^ 64) % 2 ^ 64
  let wfst : Nat := (st.w_.1 + (((len + (2 ^ 64 - 1)) % 2 ^ 64) &&& 63)) % 2 ^ 64
  let vfst : Nat := (st.v_.1 + wfst) % 2 ^ 64
  let wfst : Nat := (wfst + vfst) % 2 ^ 64
  let x : Nat :=
    (Rotate ((st.x_ + st.y_ + vfst + Fetch64 buffer (8 * 1)) % 2 ^ 64) 37 * mul) % 2 ^ 64
  let y : Nat :=
    (Rotate ((st.y_ + st.v_.2 + Fetch64 buffer (8 * 6)) % 2 ^ 64) 42 * mul) % 2 ^ 64
  let x : Nat := x ^^^ ((st.w_.2 * 9) % 2 ^ 64)
  let y : Nat := (y + vfst * 9 + Fetch64 buffer (8 * 5)) % 2 ^ 64
  let z : Nat := (Rotate ((st.z_ + wfst) % 2 ^ 64) 33 * mul) % 2 ^ 64
  let v : Nat × Nat :=
    WeakHashLen32WithSeeds (fun i => Fetch64 buffer (8 * i)) ((st.v_.2 * mul) % 2 ^ 64)
      ((x + wfst) % 2 ^ 64)
  let w : Nat × Nat :=
    WeakHashLen32WithSeeds (fun i => Fetch64 buffer (8 * (i + 4))) ((z + st.w_.2) % 2 ^ 64)
      ((y + Fetch64 buffer (8 * 2)) % 2 ^ 64)
  -- std::swap(z_, x_): the new `z_` is `x` and the new `x_` is `z`
  (HashLen16 ((HashLen16 v.1 w.1 mul + (ShiftMix y * k0) % 2 ^ 64 + x) % 2 ^ 64)
      ((HashLen16 v.2 w.2 mul + z) % 2 ^ 64) mul,
   { x_ := z, y_ := y, z_ := x, v_ := v, w_ := w, buffer_ := buffer,
     trace_ := st.trace_ ++ [Call.final_mix_] })

end state_type

open state_type

/-- The value of `buffer + 64 - hash_code.buffer_next_` converted to `size_t`. -/
def buffer_remaining (buffer_next_ : Nat) : Nat :=
  (((64 : Int) - (buffer_next_ : Int)) % (2 ^ 64 : Int)).toNat

/-- The loop `while (end - begin > 64) { memcpy(buffer, begin, 64); begin += 64;
mix(); }` of `hash_combine_range`, on the input that is left; `fuel` bounds
the number of passes. -/
def hash_combine_range.loop : Nat → state_type → List Nat → state_type × List Nat
  | 0, st, begin_ => (st, begin_)
  | fuel + 1, st, begin_ =>
    if begin_.length > 64 then
      hash_combine_range.loop fuel
        (mix { st with buffer_ := memcpy st.buffer_ 0 begin_ 64 }) (begin_.drop 64)
    else (st, begin_)

/-- The byte-pointer overload of `hash_combine_range`; `input` is the byte
range `[begin, end)`.  The loop gets `input.length` passes, more than it uses. -/
def hash_combine_range (hash_code : farmhash) (input : List Nat) : farmhash :=
  let remaining := buffer_remaining hash_code.buffer_next_
  if input.length ≤ remaining then
    { hash_code with
      state_ := { hash_code.state_ with
        buffer_ := memcpy hash_code.state_.buffer_ hash_code.buffer_next_ input input.length },
      buffer_next_ := hash_code.buffer_next_ + input.length }
  else
    let st := { hash_code.state_ with
      buffer_ := memcpy hash_code.state_.buffer_ hash_code.buffer_next_ input remaining }
    let begin_ := input.drop remaining
    let st := if !hash_code.mixed_ then state_type.initialize st else st
    let st := mix st
    let r := hash_combine_range.loop input.length st begin_
    let st := { r.1 with buffer_ := memcpy r.1.buffer_ 0 r.2 r.2.length }
    { state_ := st, buffer_next_ := r.2.length, mixed_ := true }

/-- The conversion `operator result_type() &&`: the returned value and the
hasher afterwards (the handle is unchanged, `*state_` is what `final_mix`
leaves). -/
def operator_result_type (h : farmhash) : Nat × farmhash :=
  let len := h.buffer_next_
  if !h.mixed_ then
    if len ≤ 32 then
      if len ≤ 16 then (HashLen0to16 h.state_.buffer_ len, h)
      else (HashLen17to32 h.state_.buffer_ len, h)
    else (HashLen33to64 h.state_.buffer_ len, h)
  else
    let r := final_mix h.state_ len
    (r.1, { h with state_ := r.2 })

/-- A fresh hasher on the state `s` to which `hash_combine_range` has been
applied once per chunk, in order. -/
def feed (s : state_type) (chunks : List (List Nat)) : farmhash :=
  chunks.foldl hash_combine_range (ctor s)

/-- Some contents of an uninitialised `state_type`. -/
def garbage : state_type :=
  { x_ := 1, y_ := 2, z_ := 3, v_ := (4, 5), w_ := (6, 7),
    buffer_ := fun i => (i * 7 + 3) % 256, trace_ := [] }

/-- The hasher `code1` of `TEST(StdTest, QualifiedHashValue)` before its
conversions: the `unsigned int` 17 and then the `int` 1 have been appended,
four little-endian bytes each. -/
def test_code1 : farmhash := feed garbage [[17, 0, 0, 0], [1, 0, 0, 0]]

/-- The rolling state `x_, y_, z_, v_, w_` of a `state_type`, as the locals of
`Hash64`. -/
def state_type.rolling (st : state_type) : direct.farmhash.Locals :=
  { x := st.x_, y := st.y_, z := st.z_, v := st.v_, w := st.w_ }

end farmhash

/-! ## Specification vocabulary -/

/-- The locals of `Hash64` on `s` after `k` passes of its loop from offset 0. -/
def direct.farmhash.Hash64.after (s : Ptr) : Nat → direct.farmhash.Locals
  | 0 => direct.farmhash.Hash64.init s
  | k + 1 => direct.farmhash.Hash64.body s (64 * k) (direct.farmhash.Hash64.after s k)

/-- The number of 64-byte blocks that are mixed before the last round when the
input has `n` bytes. -/
def nblocks (n : Nat) : Nat := (n - 1) / 64

open farmhash in
/-- What a hasher built on the uninitialised state `s0` looks like once the
bytes `S` have been appended to it. -/
structure Inv (s0 : farmhash.state_type) (h : farmhash) (S : List Nat) : Prop where
  cursor : h.buffer_next_ = S.length - 64 * nblocks S.length
  mixed : h.mixed_ = decide (64 < S.length)
  buf_lo : ∀ i, i < h.buffer_next_ →
    h.state_.buffer_ i = Ptr.ofList S (64 * nblocks S.length + i)
  buf_hi : 64 < S.length → ∀ i, h.buffer_next_ ≤ i → i < 64 →
    h.state_.buffer_ i = Ptr.ofList S (64 * nblocks S.length + i - 64)
  short : S.length ≤ 64 → h.state_.rolling = s0.rolling ∧ h.state_.trace_ = []
  long : 64 < S.length →
    h.state_.rolling = direct.farmhash.Hash64.after (Ptr.ofList S) (nblocks S.length) ∧
    h.state_.trace_ = Call.initialize_ :: List.replicate (nblocks S.length) Call.mix_

end hashing

namespace hashing

namespace farmhash

open state_type

/-- The state on which the first `mix()` of the saturating branch of
`hash_combine_range` runs: the buffer filled up from the input, and
`initialize()` applied when `mixed_` was false. -/
def saturate_begin (h : farmhash) (input : List Nat) : state_type :=
  if !h.mixed_ then
    state_type.initialize { h.state_ with
      buffer_ := memcpy h.state_.buffer_ h.buffer_next_ input (64 - h.buffer_next_) }
  else
    { h.state_ with
      buffer_ := memcpy h.state_.buffer_ h.buffer_next_ input (64 - h.buffer_next_) }

/-- The end of the saturating branch of `hash_combine_range`: what the loop
left is copied to the start of the buffer. -/
def saturate_end (r : state_type × List Nat) : farmhash :=
  { state_ := { r.1 with buffer_ := memcpy r.1.buffer_ 0 r.2 r.2.length },
    buffer_next_ := r.2.length, mixed_ := true }

/-- A hasher whose buffer is full (cursor 64) and that has mixed before. -/
def full_hasher : farmhash := { state_ := garbage, buffer_next_ := 64, mixed_ := true }

/-- The `j`-th 64-byte block of `S`, as memory. -/
def block (S : List Nat) (j : Nat) : Ptr := fun i => Ptr.ofList S (64 * j + i)

/-- The rolling state before the first block, in the words of the
specification: `x = 81 * k2 + firstWord`, `y = 81 * k1 + 113`,
`z = ShiftMix(y * k2 + 113) * k2`, `v = (0, 0)`, `w = (0, 0)`. -/
def initial_state (S : List Nat) : state_type :=
  { x_ := (81 * k2 + Fetch64 (Ptr.ofList S) 0) % 2 ^ 64,
    y_ := (81 * k1 + 113) % 2 ^ 64,
    z_ := (ShiftMix (((81 * k1 + 113) % 2 ^ 64 * k2 + 113) % 2 ^ 64) * k2) % 2 ^ 64,
    v_ := (0, 0), w_ := (0, 0), buffer_ := block S 0, trace_ := [] }

/-- The method `mix()` applied successively to the first `k` blocks of `S`. -/
def mix_blocks (S : List Nat) : Nat → state_type → state_type
  | 0, st => st
  | k + 1, st => mix { mix_blocks S k st with buffer_ := block S k }

end farmhash

/-! ### The formulas of the specification -/

namespace spec

open farmhash.state_type

/-- The function `weakHash(p,q,r,s,a,b)` of the specification: `a+=p;
b=rotr(b+a+s,21); c=a; a+=q; a+=r; b+=rotr(a,44); returns (a+s, b+c)`. -/
def weakHash (p q r s a b : Nat) : Nat × Nat :=
  let a := (a + p) % 2 ^ 64
  let b := Rotate ((b + a + s) % 2 ^ 64) 21
  let c := a
  let a := (a + q) % 2 ^ 64
  let a := (a + r) % 2 ^ 64
  let b := (b + Rotate a 44) % 2 ^ 64
  ((a + s) % 2 ^ 64, (b + c) % 2 ^ 64)

/-- The closed form of the block mixer on the rolling state `l` and the words
`b 0 .. b 7`, every right-hand side reduced mod `2 ^ 64` once. -/
def block_mixer (l : direct.farmhash.Locals) (b : Nat → Nat) : direct.farmhash.Locals :=
  let x' := (Rotate ((l.z + l.w.1) % 2 ^ 64) 33 * k1) % 2 ^ 64
  let z' := ((Rotate ((l.x + l.y + l.v.1 + b 1) % 2 ^ 64) 37 * k1) % 2 ^ 64) ^^^ l.w.2
  let y' := (Rotate ((l.y + l.v.2 + b 6) % 2 ^ 64) 42 * k1 + l.v.1 + b 5) % 2 ^ 64
  let v' := weakHash (b 0) (b 1) (b 2) (b 3) ((l.v.2 * k1) % 2 ^ 64) ((z' + l.w.1) % 2 ^ 64)
  let w' := weakHash (b 4) (b 5) (b 6) (b 7) ((x' + l.w.2) % 2 ^ 64) ((y' + b 2) % 2 ^ 64)
  { x := x', y := y', z := z', v := v', w := w' }

/-- The finalizer on the rolling state `l`, the words `b 0 .. b 7` of the
rotated buffer and the trailing length `len`: the length is folded in as
`w0 += len - 1; v0 += w0; w0 += v0`, the round uses `mul` for `k1`, xors `x`
with `w1 * 9` and adds `v0 * 9` to `y`. -/
def finalizer (l : direct.farmhash.Locals) (b : Nat → Nat) (len : Nat) : Nat :=
  let mul := (k1 + ((l.z &&& 0xff) <<< 1)) % 2 ^ 64
  let w0 := (l.w.1 + (len - 1)) % 2 ^ 64
  let v0 := (l.v.1 + w0) % 2 ^ 64
  let w0 := (w0 + v0) % 2 ^ 64
  let x' := (Rotate ((l.z + w0) % 2 ^ 64) 33 * mul) % 2 ^ 64
  let z' := ((Rotate ((l.x + l.y + v0 + b 1) % 2 ^ 64) 37 * mul) % 2 ^ 64)
    ^^^ ((l.w.2 * 9) % 2 ^ 64)
  let y' := (Rotate ((l.y + l.v.2 + b 6) % 2 ^ 64) 42 * mul + v0 * 9 + b 5) % 2 ^ 64
  let v' := weakHash (b 0) (b 1) (b 2) (b 3) ((l.v.2 * mul) % 2 ^ 64) ((z' + w0) % 2 ^ 64)
  let w' := weakHash (b 4) (b 5) (b 6) (b 7) ((x' + l.w.2) % 2 ^ 64) ((y' + b 2) % 2 ^ 64)
  HashLen16 ((HashLen16 v'.1 w'.1 mul + ShiftMix y' * k0 + z') % 2 ^ 64)
    ((HashLen16 v'.2 w'.2 mul + x') % 2 ^ 64) mul

/-- A function on naturals that is a bijection of the 64-bit words. -/
def bijective_on_u64 (f : Nat → Nat) : Prop :=
  (∀ x, x < 2 ^ 64 → f x < 2 ^ 64) ∧
  (∀ x y, x < 2 ^ 64 → y < 2 ^ 64 → f x = f y → x = y) ∧
  (∀ y, y < 2 ^ 64 → ∃ x, x < 2 ^ 64 ∧ f x = y)

end spec

end hashing

/-! ### Pointers, passes and reads of the reference and of the short formulas -/

namespace hashing

namespace direct
namespace farmhash

/-- The pointer `end` of `Hash64`, as an offset from `s`. -/
def Hash64.end_ (len : Nat) : Nat := ((len - 1) / 64) * 64

/-- The pointer `last64` of `Hash64`, `end + ((len - 1) & 63) - 63`, as an
integer offset from `s`. -/
def Hash64.last64 (len : Nat) : Int :=
  (Hash64.end_ len : Int) + (((len - 1) &&& 63 : Nat) : Int) - 63

/-- The condition of `assert(s + len - 64 == last64)` in `Hash64`. -/
def Hash64.assertion (len : Nat) : Bool :=
  decide ((len : Int) - 64 = Hash64.last64 len)

/-- The offsets that the pointer overload of `WeakHashLen32WithSeeds` passes
to `Fetch` when called at `s + off`. -/
def WeakHashLen32WithSeeds.fetches (off : Nat) : List Nat :=
  [off, off + 8, off + 16, off + 24]

/-- The offsets passed to `Fetch` in one round of `Hash64` (a pass of the loop
body, or the last round) with `s` at offset `p`. -/
def Hash64.round_fetches (p : Nat) : List Nat :=
  [p + 8, p + 48, p + 40] ++ WeakHashLen32WithSeeds.fetches p
    ++ WeakHashLen32WithSeeds.fetches (p + 32) ++ [p + 16]

/-- The loop of `Hash64` with two ghost results: the number of passes made and
the offsets fetched. -/
def Hash64.loop_traced (s : Ptr) (end_ : Nat) :
    Nat → Nat → Locals → Nat → List Nat → Locals × Nat × Nat × List Nat
  | 0, p, l, n, fs => (l, p, n, fs)
  | fuel + 1, p, l, n, fs =>
    let fs := fs ++ Hash64.round_fetches p
    let l := Hash64.body s p l
    let p := p + 64
    if p ≠ end_ then Hash64.loop_traced s end_ fuel p l (n + 1) fs else (l, p, n + 1, fs)

end farmhash
end direct

namespace farmhash

/-- A read of `width` bytes through the pointer `s + off - back`. -/
structure Read where
  off : Nat
  back : Nat
  width : Nat
deriving DecidableEq, Repr

/-- The read stays inside `[s, s + len)`: the pointer does not go below `s`
and the last byte read is below `s + len`. -/
def Read.in_bounds (r : Read) (len : Nat) : Prop :=
  r.back ≤ r.off ∧ r.off - r.back + r.width ≤ len

/-- The memories `p` and `q` hold the same bytes wherever `reads` reads. -/
def agree_on (reads : List Read) (p q : Ptr) : Prop :=
  ∀ r, r ∈ reads → ∀ i, i < r.width → p (r.off - r.back + i) = q (r.off - r.back + i)

namespace state_type

/-- The reads of `HashLen0to16(s, len)`: `Fetch64(s)`, `Fetch64(s + len - 8)`;
or `Fetch32(s)`, `Fetch32(s + len - 4)`; or `s[0]`, `s[len >> 1]`,
`s[len - 1]`; or none. -/
def HashLen0to16.reads (len : Nat) : List Read :=
  if len ≥ 8 then [⟨0, 0, 8⟩, ⟨len, 8, 8⟩]
  else if len ≥ 4 then [⟨0, 0, 4⟩, ⟨len, 4, 4⟩]
  else if len > 0 then [⟨0, 0, 1⟩, ⟨len >>> 1, 0, 1⟩, ⟨len, 1, 1⟩]
  else []

/-- The reads of `HashLen17to32(s, len)`. -/
def HashLen17to32.reads (len : Nat) : List Read :=
  [⟨0, 0, 8⟩, ⟨8, 0, 8⟩, ⟨len, 8, 8⟩, ⟨len, 16, 8⟩]

/-- The reads of `HashLen33to64(s, len)`. -/
def HashLen33to64.reads (len : Nat) : List Read :=
  [⟨0, 0, 8⟩, ⟨8, 0, 8⟩, ⟨len, 8, 8⟩, ⟨len, 16, 8⟩,
   ⟨16, 0, 8⟩, ⟨24, 0, 8⟩, ⟨len, 32, 8⟩, ⟨len, 24, 8⟩]

end state_type

/-- The reads of the buffer made by the conversion of an unmixed hasher with
the cursor at `len`. -/
def operator_result_type.reads (len : Nat) : List Read :=
  if len ≤ 32 then
    if len ≤ 16 then state_type.HashLen0to16.reads len else state_type.HashLen17to32.reads len
  else state_type.HashLen33to64.reads len

end farmhash

end hashing

/-! ## `src/fnv1a.h` -/

namespace hashing

/-- The class `fnv1a`: its one member, the `unsigned long long state_`. -/
structure fnv1a where
  state_ : Nat
deriving DecidableEq, Repr

namespace fnv1a

/-- The constructor `fnv1a()`, with the default member initialiser of `state_`. -/
def ctor : fnv1a := { state_ := 14695981039346656037 }

/-- The function `mix(hash_code, c)`: `(hash_code.state_ ^ c) * 1099511628211u`. -/
def mix (hash_code : fnv1a) (c : Nat) : Nat :=
  ((hash_code.state_ ^^^ c) * 1099511628211) % 2 ^ 64

/-- The byte-pointer overload of `hash_combine_range`: the loop
`while (begin < end) { hash_code.state_ = mix(hash_code, *begin); ++begin; }`
on the bytes of `[begin, end)`. -/
def hash_combine_range : fnv1a → List Nat → fnv1a
  | hash_code, [] => hash_code
  | hash_code, c :: rest => hash_combine_range { state_ := mix hash_code c } rest

/-- The conversion `operator result_type() &&`. -/
def operator_result_type (hash_code : fnv1a) : Nat := hash_code.state_

/-- A fresh `fnv1a` to which `hash_combine_range` has been applied once per
chunk, in order. -/
def feed (chunks : List (List Nat)) : fnv1a :=
  chunks.foldl hash_combine_range ctor

end fnv1a

namespace spec

/-- The 64-bit FNV-1a hash of a byte sequence: the left fold of
`state := ((state xor byte) * 1099511628211) mod 2 ^ 64` from the offset
basis 14695981039346656037. -/
def fnv1a_64 (bytes : List Nat) : Nat :=
  bytes.foldl (fun state byte => ((state ^^^ byte) * 1099511628211) % 2 ^ 64)
    14695981039346656037

/-- The byte sequences `A` and `B` have the same length and differ at the
position `i` and nowhere else. -/
def differ_exactly_at (A B : List Nat) (i : Nat) : Prop :=
  A.length = B.length ∧ i < A.length ∧ A.getD i 0 ≠ B.getD i 0 ∧
    ∀ j, j ≠ i → A.getD j 0 = B.getD j 0

end spec

namespace farmhash

/-- The hasher to which 65 zero bytes have been appended in one call. -/
def zeros65 (s : state_type) : farmhash := feed s [List.replicate 65 0]

end farmhash

end hashing

/-! ## Reading words: the two implementations see the same bytes -/

namespace hashing

open farmhash farmhash.state_type

theorem Fetch64_congr (p q : Ptr) (a b : Nat) (h : ∀ i, i < 8 → p (a + i) = q (b + i)) :
    Fetch64 p a = Fetch64 q b := by
  have h0 := h 0 (by omega)
  simp only [Nat.add_zero] at h0
  simp only [Fetch64, h0, h 1 (by omega), h 2 (by omega), h 3 (by omega), h 4 (by omega),
    h 5 (by omega), h 6 (by omega), h 7 (by omega)]

theorem Fetch32_congr (p q : Ptr) (a b : Nat) (h : ∀ i, i < 4 → p (a + i) = q (b + i)) :
    Fetch32 p a = Fetch32 q b := by
  have h0 := h 0 (by omega)
  simp only [Nat.add_zero] at h0
  simp only [Fetch32, h0, h 1 (by omega), h 2 (by omega), h 3 (by omega)]

theorem HashLen0to16_congr (p q : Ptr) (len : Nat) (h : ∀ i, i < len → p i = q i) :
    HashLen0to16 p len = HashLen0to16 q len := by
  unfold HashLen0to16
  by_cases h8 : len ≥ 8
  · have e1 : Fetch64 p 0 = Fetch64 q 0 :=
      Fetch64_congr p q 0 0 (fun i hi => by simpa using h i (by omega))
    have e2 : Fetch64 p (len - 8) = Fetch64 q (len - 8) :=
      Fetch64_congr p q _ _ (fun i hi => h _ (by omega))
    simp only [h8, if_true, e1, e2]
  · by_cases h4 : len ≥ 4
    · have e1 : Fetch32 p 0 = Fetch32 q 0 :=
        Fetch32_congr p q 0 0 (fun i hi => by simpa using h i (by omega))
      have e2 : Fetch32 p (len - 4) = Fetch32 q (len - 4) :=
        Fetch32_congr p q _ _ (fun i hi => h _ (by omega))
      simp only [h8, h4, if_true, if_false, e1, e2]
    · by_cases h0 : len > 0
      · have hs : len >>> 1 < len := by
          rw [Nat.shiftRight_eq_div_pow]; omega
        simp only [h8, h4, h0, if_true, if_false, h 0 h0, h (len >>> 1) hs,
          h (len - 1) (by omega)]
      · simp only [h8, h4, h0, if_false]

theorem HashLen17to32_congr (p q : Ptr) (len : Nat) (hl : 16 ≤ len)
    (h : ∀ i, i < len → p i = q i) : HashLen17to32 p len = HashLen17to32 q len := by
  have e1 : Fetch64 p 0 = Fetch64 q 0 :=
    Fetch64_congr p q 0 0 (fun i hi => by simpa using h i (by omega))
  have e2 : Fetch64 p 8 = Fetch64 q 8 := Fetch64_congr p q _ _ (fun i hi => h _ (by omega))
  have e3 : Fetch64 p (len - 8) = Fetch64 q (len - 8) :=
    Fetch64_congr p q _ _ (fun i hi => h _ (by omega))
  have e4 : Fetch64 p (len - 16) = Fetch64 q (len - 16) :=
    Fetch64_congr p q _ _ (fun i hi => h _ (by omega))
  simp only [HashLen17to32, e1, e2, e3, e4]

theorem HashLen33to64_congr (p q : Ptr) (len : Nat) (hl : 32 ≤ len)
    (h : ∀ i, i < len → p i = q i) : HashLen33to64 p len = HashLen33to64 q len := by
  have e1 : Fetch64 p 0 = Fetch64 q 0 :=
    Fetch64_congr p q 0 0 (fun i hi => by simpa using h i (by omega))
  have e2 : Fetch64 p 8 = Fetch64 q 8 := Fetch64_congr p q _ _ (fun i hi => h _ (by omega))
  have e3 : Fetch64 p (len - 8) = Fetch64 q (len - 8) :=
    Fetch64_congr p q _ _ (fun i hi => h _ (by omega))
  have e4 : Fetch64 p (len - 16) = Fetch64 q (len - 16) :=
    Fetch64_congr p q _ _ (fun i hi => h _ (by omega))
  have e5 : Fetch64 p 16 = Fetch64 q 16 := Fetch64_congr p q _ _ (fun i hi => h _ (by omega))
  have e6 : Fetch64 p 24 = Fetch64 q 24 := Fetch64_congr p q _ _ (fun i hi => h _ (by omega))
  have e7 : Fetch64 p (len - 32) = Fetch64 q (len - 32) :=
    Fetch64_congr p q _ _ (fun i hi => h _ (by omega))
  have e8 : Fetch64 p (len - 24) = Fetch64 q (len - 24) :=
    Fetch64_congr p q _ _ (fun i hi => h _ (by omega))
  simp only [HashLen33to64, e1, e2, e3, e4, e5, e6, e7, e8]

/-- The short-input formulas of the two files are the same functions. -/
theorem HashLen_agree (p : Ptr) (len : Nat) :
    HashLen0to16 p len = direct.farmhash.HashLen0to16 p len ∧
    HashLen17to32 p len = direct.farmhash.HashLen17to32 p len ∧
    HashLen33to64 p len = direct.farmhash.HashLen33to64 p len :=
  ⟨rfl, rfl, rfl⟩

theorem word_eq_of_block (st : state_type) (s : Ptr) (p : Nat)
    (hb : ∀ i, i < 64 → st.buffer_ i = s (p + i)) (j : Nat) (hj : j < 8) :
    st.word j = direct.farmhash.Fetch s (p + 8 * j) := by
  unfold word
  exact Fetch64_congr _ _ _ _ (fun i hi => by rw [hb _ (by omega)]; congr 1; omega)

/-! ## One `mix()` is one pass of the loop of `Hash64` -/

theorem mix_rolling (st : state_type) (s : Ptr) (p : Nat)
    (hb : ∀ i, i < 64 → st.buffer_ i = s (p + i)) :
    (mix st).rolling = direct.farmhash.Hash64.body s p st.rolling := by
  have w1 := word_eq_of_block st s p hb
  have e0 := w1 0 (by omega)
  have e1 := w1 1 (by omega)
  have e2 := w1 2 (by omega)
  have e3 := w1 3 (by omega)
  have e4 := w1 4 (by omega)
  have e5 := w1 5 (by omega)
  have e6 := w1 6 (by omega)
  have e7 := w1 7 (by omega)
  simp only [Nat.mul_zero, Nat.add_zero, Nat.mul_one, Nat.reduceMul] at e0 e1 e2 e3 e4 e5 e6 e7
  simp only [mix, rolling, direct.farmhash.Hash64.body, direct.farmhash.WeakHashLen32WithSeeds,
    direct.farmhash.WeakHashLen32WithSeeds6, WeakHashLen32WithSeeds, e0, e1, e2, e3, e4, e5,
    e6, e7, Nat.zero_add, Nat.reduceAdd, Nat.add_assoc]
  rfl

theorem mix_buffer (st : state_type) : (mix st).buffer_ = st.buffer_ := rfl

theorem mix_trace (st : state_type) : (mix st).trace_ = st.trace_ ++ [Call.mix_] := rfl

theorem initialize_rolling (st : state_type) (s : Ptr)
    (hb : ∀ i, i < 64 → st.buffer_ i = s i) :
    ( state_type.initialize st).rolling = direct.farmhash.Hash64.init s := by
  have e0 := word_eq_of_block st s 0 (by simpa using hb) 0 (by omega)
  simp only [Nat.mul_zero, Nat.add_zero] at e0
  simp only [rolling, state_type.initialize, direct.farmhash.Hash64.init, e0]
  rfl

theorem initialize_buffer (st : state_type) :
    ( state_type.initialize st).buffer_ = st.buffer_ := rfl

theorem initialize_trace (st : state_type) :
    ( state_type.initialize st).trace_ = st.trace_ ++ [Call.initialize_] := rfl

theorem final_mix_value (st : state_type) (len : Nat) (s : Ptr) (p n : Nat)
    (hb : ∀ i, i < 64 → std_rotate st.buffer_ len 64 i = s (p + i))
    (hl : ((len + (2 ^ 64 - 1)) % 2 ^ 64) &&& 63 = (n - 1) &&& 63) :
    (final_mix st len).1 = direct.farmhash.Hash64.final s p n st.rolling := by
  have w1 : ∀ j, j < 8 → Fetch64 (std_rotate st.buffer_ len 64) (8 * j)
      = direct.farmhash.Fetch s (p + 8 * j) := fun j hj =>
    Fetch64_congr _ _ _ _ (fun i hi => by rw [hb _ (by omega)]; congr 1; omega)
  have e0 := w1 0 (by omega)
  have e1 := w1 1 (by omega)
  have e2 := w1 2 (by omega)
  have e3 := w1 3 (by omega)
  have e4 := w1 4 (by omega)
  have e5 := w1 5 (by omega)
  have e6 := w1 6 (by omega)
  have e7 := w1 7 (by omega)
  simp only [Nat.mul_zero, Nat.add_zero, Nat.reduceMul] at e0 e1 e2 e3 e4 e5 e6 e7
  simp only [final_mix, rolling, direct.farmhash.Hash64.final,
    direct.farmhash.WeakHashLen32WithSeeds, direct.farmhash.WeakHashLen32WithSeeds6,
    WeakHashLen32WithSeeds, e0, e1, e2, e3, e4, e5, e6, e7, Nat.zero_add, Nat.reduceAdd,
    Nat.reduceMul, Nat.add_assoc, hl]
  rfl

theorem final_mix_trace (st : state_type) (len : Nat) :
    (final_mix st len).2.trace_ = st.trace_ ++ [Call.final_mix_] := rfl

theorem body_congr (s t : Ptr) (p : Nat) (l : direct.farmhash.Locals)
    (h : ∀ i, i < 64 → s (p + i) = t (p + i)) :
    direct.farmhash.Hash64.body s p l = direct.farmhash.Hash64.body t p l := by
  let st : state_type :=
    { x_ := l.x, y_ := l.y, z_ := l.z, v_ := l.v, w_ := l.w,
      buffer_ := fun i => s (p + i), trace_ := [] }
  have h1 := mix_rolling st s p (fun _ _ => rfl)
  have h2 := mix_rolling st t p (fun i hi => h i hi)
  exact h1.symm.trans h2

theorem init_congr (s t : Ptr) (h : ∀ i, i < 8 → s i = t i) :
    direct.farmhash.Hash64.init s = direct.farmhash.Hash64.init t := by
  have e : direct.farmhash.Fetch s 0 = direct.farmhash.Fetch t 0 :=
    Fetch64_congr s t 0 0 (fun i hi => by simpa using h i hi)
  simp only [direct.farmhash.Hash64.init, e]

theorem after_congr (s t : Ptr) (k : Nat) (h8 : ∀ i, i < 8 → s i = t i)
    (h : ∀ i, i < 64 * k → s i = t i) :
    direct.farmhash.Hash64.after s k = direct.farmhash.Hash64.after t k := by
  induction k with
  | zero => exact init_congr s t h8
  | succ k ih =>
    simp only [direct.farmhash.Hash64.after]
    rw [ih (fun i hi => h i (by omega))]
    exact body_congr s t _ _ (fun i hi => h _ (by omega))

/-! ## Byte sequences as memory -/

theorem ofList_append_left (S C : List Nat) (i : Nat) (hi : i < S.length) :
    Ptr.ofList (S ++ C) i = Ptr.ofList S i := by
  exact List.getD_append _ _ _ _ hi

theorem ofList_append_right (S C : List Nat) (i : Nat) (hi : S.length ≤ i) :
    Ptr.ofList (S ++ C) i = C.getD (i - S.length) 0 := by
  exact List.getD_append_right _ _ _ _ hi

theorem ofList_drop (T : List Nat) (k i : Nat) :
    (T.drop k).getD i 0 = Ptr.ofList T (k + i) := by
  simp [Ptr.ofList, List.getD_eq_getElem?_getD, List.getElem?_drop]

theorem after_append (S C : List Nat) (k : Nat) (h8 : 8 ≤ S.length) (hk : 64 * k ≤ S.length) :
    direct.farmhash.Hash64.after (Ptr.ofList (S ++ C)) k
      = direct.farmhash.Hash64.after (Ptr.ofList S) k :=
  after_congr _ _ k (fun i hi => ofList_append_left S C i (by omega))
    (fun i hi => ofList_append_left S C i (by omega))

theorem nblocks_eq (n k : Nat) (h1 : 64 * k < n) (h2 : n ≤ 64 * k + 64) : nblocks n = k := by
  unfold nblocks; omega

theorem and_63 (m : Nat) : m &&& 63 = m % 64 := Nat.and_pow_two_sub_one_eq_mod m 6

theorem buffer_remaining_eq (c : Nat) (hc : c ≤ 64) : buffer_remaining c = 64 - c := by
  unfold buffer_remaining
  omega

end hashing

/-! ## The loops -/

namespace hashing

open farmhash farmhash.state_type

/-- The loop of `hash_combine_range`, started after `k` blocks of the whole
input `T` have been mixed, stops with the last `1 .. 64` bytes of `T` left,
all earlier blocks mixed, and the last mixed block still in the buffer. -/
theorem loop_spec (T : List Nat) (tr : List Call) :
    ∀ (fuel k : Nat) (st : state_type) (rest : List Nat),
      rest = T.drop (64 * k) → 1 ≤ rest.length → rest.length ≤ 64 + 64 * fuel →
      st.rolling = direct.farmhash.Hash64.after (Ptr.ofList T) k →
      st.trace_ = tr ++ List.replicate k Call.mix_ →
      (∀ i, i < 64 → st.buffer_ i = Ptr.ofList T (64 * k + i - 64)) →
      (hash_combine_range.loop fuel st rest).2 = T.drop (64 * nblocks T.length) ∧
      1 ≤ (hash_combine_range.loop fuel st rest).2.length ∧
      (hash_combine_range.loop fuel st rest).2.length ≤ 64 ∧
      (hash_combine_range.loop fuel st rest).1.rolling
        = direct.farmhash.Hash64.after (Ptr.ofList T) (nblocks T.length) ∧
      (hash_combine_range.loop fuel st rest).1.trace_
        = tr ++ List.replicate (nblocks T.length) Call.mix_ ∧
      (∀ i, i < 64 → (hash_combine_range.loop fuel st rest).1.buffer_ i
        = Ptr.ofList T (64 * nblocks T.length + i - 64)) := by
  intro fuel
  induction fuel with
  | zero =>
    intro k st rest hrest h1 hf hroll htr hbuf
    have hlen : rest.length = T.length - 64 * k := by rw [hrest, List.length_drop]
    have hk : nblocks T.length = k := nblocks_eq _ _ (by omega) (by omega)
    simp only [hash_combine_range.loop, hk]
    exact ⟨hrest, h1, by omega, hroll, htr, hbuf⟩
  | succ fuel ih =>
    intro k st rest hrest h1 hf hroll htr hbuf
    have hlen : rest.length = T.length - 64 * k := by rw [hrest, List.length_drop]
    by_cases hgt : rest.length > 64
    · simp only [hash_combine_range.loop, hgt, if_true]
      have hb2 : ∀ i, i < 64 →
          ({ st with buffer_ := memcpy st.buffer_ 0 rest 64 } : state_type).buffer_ i
            = Ptr.ofList T (64 * k + i) := by
        intro i hi
        simp only [memcpy, Nat.zero_le, true_and, Nat.zero_add, hi, if_true, Nat.sub_zero]
        rw [hrest, ofList_drop]
      apply ih (k + 1)
      · rw [hrest, List.drop_drop, Nat.mul_succ]
      · rw [List.length_drop]; omega
      · rw [List.length_drop]; omega
      · rw [mix_rolling _ (Ptr.ofList T) (64 * k) hb2]
        simp only [direct.farmhash.Hash64.after]
        congr 1
      · rw [mix_trace]
        show st.trace_ ++ [Call.mix_] = _
        rw [htr, List.replicate_succ', List.append_assoc]
      · intro i hi
        rw [mix_buffer, hb2 i hi]
        congr 1
        omega
    · have hk : nblocks T.length = k := nblocks_eq _ _ (by omega) (by omega)
      simp only [hash_combine_range.loop, hgt, if_false, hk]
      exact ⟨hrest, h1, by omega, hroll, htr, hbuf⟩

/-- The loop of `Hash64` leaves through its test `s != end`, after the passes
over the blocks `j .. nb - 1`, whenever the fuel is at least their number. -/
theorem direct_loop_spec (s : Ptr) (nb : Nat) :
    ∀ (fuel j : Nat), j < nb → nb - j ≤ fuel →
      direct.farmhash.Hash64.loop s (nb * 64) fuel (64 * j) (direct.farmhash.Hash64.after s j)
        = (direct.farmhash.Hash64.after s nb, 64 * nb) := by
  intro fuel
  induction fuel with
  | zero => intro j hj hf; omega
  | succ fuel ih =>
    intro j hj hf
    simp only [direct.farmhash.Hash64.loop]
    by_cases he : 64 * j + 64 = nb * 64
    · have hjn : j + 1 = nb := by omega
      simp only [he, ne_eq, not_true_eq_false, if_false]
      subst hjn
      simp only [direct.farmhash.Hash64.after, Prod.mk.injEq, true_and]
      omega
    · simp only [ne_eq, he, not_false_eq_true, if_true]
      have := ih (j + 1) (by omega) (by omega)
      simp only [direct.farmhash.Hash64.after, Nat.mul_succ] at this
      exact this

theorem Hash64_long (s : Ptr) (n : Nat) (hn : 64 < n) :
    direct.farmhash.Hash64 s n
      = direct.farmhash.Hash64.final s (n - 64) n
          (direct.farmhash.Hash64.after s (nblocks n)) := by
  have h32 : ¬ n ≤ 32 := by omega
  have h64 : ¬ n ≤ 64 := by omega
  have hl := direct_loop_spec s ((n - 1) / 64) n 0 (by omega) (by omega)
  simp only [Nat.mul_zero] at hl
  have hlast : (n - 1) / 64 * 64 + ((n - 1) &&& 63) - 63 = n - 64 := by
    rw [and_63]; omega
  simp only [direct.farmhash.Hash64, h32, h64, if_false, hlast]
  rw [show direct.farmhash.Hash64.init s = direct.farmhash.Hash64.after s 0 from rfl, hl]
  rfl

/-! ## The invariant of the hasher -/

theorem Inv_ctor (s0 : state_type) : Inv s0 (ctor s0) [] := by
  refine ⟨by simp [ctor, nblocks], by simp [ctor], ?_, ?_, ?_, ?_⟩
  · intro i hi; simp [ctor] at hi
  · intro h; simp at h
  · intro _; exact ⟨rfl, rfl⟩
  · intro h; simp at h

theorem Inv.cursor_le {s0 : state_type} {h : farmhash} {S : List Nat} (inv : Inv s0 h S) :
    h.buffer_next_ ≤ 64 := by
  rw [inv.cursor]; unfold nblocks; omega

/-- What `hash_combine_range` does when the range fits in the buffer. -/
theorem hash_combine_range_fit (h : farmhash) (C : List Nat) (hc : h.buffer_next_ ≤ 64)
    (hfit : C.length ≤ 64 - h.buffer_next_) :
    hash_combine_range h C =
      { h with
        state_ := { h.state_ with
          buffer_ := memcpy h.state_.buffer_ h.buffer_next_ C C.length },
        buffer_next_ := h.buffer_next_ + C.length } := by
  unfold hash_combine_range
  simp only [buffer_remaining_eq _ hc, hfit, if_true]

theorem Inv_fit (s0 : state_type) (h : farmhash) (S C : List Nat) (inv : Inv s0 h S)
    (hfit : C.length ≤ 64 - h.buffer_next_) :
    Inv s0 (hash_combine_range h C) (S ++ C) := by
  have hc := inv.cursor
  have hc64 := inv.cursor_le
  have hnb : nblocks (S ++ C).length = nblocks S.length := by
    rw [List.length_append]; unfold nblocks at hc ⊢; omega
  have hbl : 64 * nblocks S.length ≤ S.length := by unfold nblocks; omega
  have hlong : 64 < (S ++ C).length → 64 < S.length := by
    rw [List.length_append]; unfold nblocks at hc; omega
  rw [hash_combine_range_fit h C hc64 hfit]
  refine ⟨?_, ?_, ?_, ?_, ?_, ?_⟩
  · show h.buffer_next_ + C.length = _
    rw [hnb, List.length_append]; omega
  · show h.mixed_ = _
    rw [inv.mixed]
    by_cases h64 : 64 < S.length
    · have : 64 < (S ++ C).length := by rw [List.length_append]; omega
      rw [decide_eq_true h64, decide_eq_true this]
    · have : ¬ 64 < (S ++ C).length := fun hh => h64 (hlong hh)
      rw [decide_eq_false h64, decide_eq_false this]
  · intro i hi
    show memcpy h.state_.buffer_ h.buffer_next_ C C.length i = _
    rw [hnb]
    unfold memcpy
    by_cases hci : h.buffer_next_ ≤ i
    · have hi2 : i < h.buffer_next_ + C.length := hi
      simp only [hci, hi2, and_self, if_true]
      rw [ofList_append_right _ _ _ (by omega)]
      congr 1; omega
    · simp only [hci, false_and, if_false]
      rw [inv.buf_lo i (by omega), ofList_append_left _ _ _ (by omega)]
  · intro hl i hi hi64
    show memcpy h.state_.buffer_ h.buffer_next_ C C.length i = _
    have hi2 : ¬ i < h.buffer_next_ + C.length := by
      have : h.buffer_next_ + C.length ≤ i := hi
      omega
    unfold memcpy
    simp only [hi2, and_false, if_false]
    have hS := hlong hl
    rw [hnb, inv.buf_hi hS i (by omega) hi64, ofList_append_left _ _ _ (by omega)]
  · intro hs
    have hS : S.length ≤ 64 := by rw [List.length_append] at hs; omega
    exact inv.short hS
  · intro hl
    have hS := hlong hl
    have hL := inv.long hS
    rw [hnb, after_append S C _ (by omega) hbl]
    exact hL

theorem Inv_saturate (s0 : state_type) (h : farmhash) (S C : List Nat) (inv : Inv s0 h S)
    (hbig : ¬ C.length ≤ 64 - h.buffer_next_) :
    Inv s0 (hash_combine_range h C) (S ++ C) := by
  have hc := inv.cursor
  have hc64 := inv.cursor_le
  have hbl : 64 * nblocks S.length ≤ S.length := by unfold nblocks; omega
  have hTlen : (S ++ C).length = S.length + C.length := List.length_append _ _
  have hT64 : 64 < (S ++ C).length := by rw [hTlen]; omega
  -- the buffer, once filled, is block `nblocks S.length` of the whole input
  have hb1 : ∀ i, i < 64 →
      memcpy h.state_.buffer_ h.buffer_next_ C (64 - h.buffer_next_) i
        = Ptr.ofList (S ++ C) (64 * nblocks S.length + i) := by
    intro i hi
    unfold memcpy
    by_cases hci : h.buffer_next_ ≤ i
    · have hi2 : i < h.buffer_next_ + (64 - h.buffer_next_) := by omega
      simp only [hci, hi2, and_self, if_true]
      rw [ofList_append_right _ _ _ (by omega)]
      congr 1; omega
    · simp only [hci, false_and, if_false]
      rw [inv.buf_lo i (by omega), ofList_append_left _ _ _ (by omega)]
  -- the state on which the first `mix()` runs
  have hst2 : ∀ st2 : state_type,
      (if (!h.mixed_) = true then
          state_type.initialize { h.state_ with
            buffer_ := memcpy h.state_.buffer_ h.buffer_next_ C (64 - h.buffer_next_) }
        else { h.state_ with
            buffer_ := memcpy h.state_.buffer_ h.buffer_next_ C (64 - h.buffer_next_) })
        = st2 →
      st2.buffer_ = memcpy h.state_.buffer_ h.buffer_next_ C (64 - h.buffer_next_) ∧
      st2.rolling = direct.farmhash.Hash64.after (Ptr.ofList (S ++ C)) (nblocks S.length) ∧
      st2.trace_ = [Call.initialize_] ++ List.replicate (nblocks S.length) Call.mix_ := by
    intro st2 hst2
    by_cases h64 : 64 < S.length
    · have hm : h.mixed_ = true := by rw [inv.mixed, decide_eq_true h64]
      rw [hm] at hst2
      simp only [Bool.not_true, Bool.false_eq_true, if_false] at hst2
      obtain ⟨hr, ht⟩ := inv.long h64
      rw [← hst2]
      refine ⟨rfl, ?_, ?_⟩
      · rw [after_append S C _ (by omega) hbl]; exact hr
      · show h.state_.trace_ = _
        rw [ht]; rfl
    · have hm : h.mixed_ = false := by rw [inv.mixed, decide_eq_false h64]
      rw [hm] at hst2
      simp only [Bool.not_false, if_true] at hst2
      have hn0 : nblocks S.length = 0 := by unfold nblocks; omega
      obtain ⟨_, ht⟩ := inv.short (by omega)
      rw [← hst2, hn0]
      refine ⟨rfl, ?_, ?_⟩
      · apply initialize_rolling
        intro i hi
        have := hb1 i hi
        rw [hn0] at this
        simpa using this
      · rw [initialize_trace]
        show h.state_.trace_ ++ [Call.initialize_] = _
        rw [ht]; rfl
  unfold hash_combine_range
  simp only [buffer_remaining_eq _ hc64, hbig, if_false]
  generalize hst2e : (if (!h.mixed_) = true then
      state_type.initialize { h.state_ with
        buffer_ := memcpy h.state_.buffer_ h.buffer_next_ C (64 - h.buffer_next_) }
      else { h.state_ with
        buffer_ := memcpy h.state_.buffer_ h.buffer_next_ C (64 - h.buffer_next_) }) = st2
  obtain ⟨h2b, h2r, h2t⟩ := hst2 st2 hst2e
  have hb2 : ∀ i, i < 64 → st2.buffer_ i = Ptr.ofList (S ++ C) (64 * nblocks S.length + i) := by
    intro i hi; rw [h2b]; exact hb1 i hi
  have hloop := loop_spec (S ++ C) [Call.initialize_] C.length
    (nblocks S.length + 1) (mix st2) (C.drop (64 - h.buffer_next_))
    (by
      have e : 64 * (nblocks S.length + 1) = S.length + (64 - h.buffer_next_) := by omega
      rw [e, List.drop_append])
    (by rw [List.length_drop]; omega)
    (by rw [List.length_drop]; omega)
    (by
      rw [mix_rolling st2 (Ptr.ofList (S ++ C)) (64 * nblocks S.length) hb2, h2r]
      rfl)
    (by rw [mix_trace, h2t, List.replicate_succ', List.append_assoc])
    (by
      intro i hi
      rw [mix_buffer, hb2 i hi]
      congr 1; omega)
  generalize hash_combine_range.loop C.length (mix st2) (C.drop (64 - h.buffer_next_)) = r
    at hloop ⊢
  obtain ⟨hr2, hr1, hr64, hroll, htr, hbuf⟩ := hloop
  have hrlen : r.2.length = (S ++ C).length - 64 * nblocks (S ++ C).length := by
    rw [hr2, List.length_drop]
  refine ⟨?_, ?_, ?_, ?_, ?_, ?_⟩
  · exact hrlen
  · show true = _
    rw [decide_eq_true hT64]
  · intro i hi
    have hi2 : i < r.2.length := hi
    show memcpy r.1.buffer_ 0 r.2 r.2.length i = _
    unfold memcpy
    simp only [Nat.zero_le, true_and, Nat.zero_add, hi2, if_true, Nat.sub_zero]
    rw [hr2, ofList_drop]
  · intro _ i hi hi64
    have hi2 : ¬ i < r.2.length := by
      have : r.2.length ≤ i := hi
      omega
    show memcpy r.1.buffer_ 0 r.2 r.2.length i = _
    unfold memcpy
    simp only [Nat.zero_le, true_and, Nat.zero_add, hi2, if_false]
    exact hbuf i hi64
  · intro hs; omega
  · intro _
    refine ⟨hroll, ?_⟩
    show r.1.trace_ = _
    rw [htr]; rfl

theorem Inv_step (s0 : state_type) (h : farmhash) (S C : List Nat) (inv : Inv s0 h S) :
    Inv s0 (hash_combine_range h C) (S ++ C) := by
  by_cases hfit : C.length ≤ 64 - h.buffer_next_
  · exact Inv_fit s0 h S C inv hfit
  · exact Inv_saturate s0 h S C inv hfit

theorem Inv_foldl (s0 : state_type) (chunks : List (List Nat)) :
    ∀ (h : farmhash) (S : List Nat), Inv s0 h S →
      Inv s0 (chunks.foldl hash_combine_range h) (S ++ chunks.flatten) := by
  induction chunks with
  | nil => intro h S inv; simpa using inv
  | cons C cs ih =>
    intro h S inv
    simp only [List.foldl_cons, List.flatten_cons]
    rw [← List.append_assoc]
    exact ih _ _ (Inv_step s0 h S C inv)

/-- Every hasher reached from a fresh one satisfies the invariant for the
bytes appended so far. -/
theorem Inv_feed (s0 : state_type) (chunks : List (List Nat)) :
    Inv s0 (feed s0 chunks) chunks.flatten := by
  have := Inv_foldl s0 chunks (ctor s0) [] (Inv_ctor s0)
  simpa [feed] using this

theorem Inv_once (s0 : state_type) (S : List Nat) :
    Inv s0 (hash_combine_range (ctor s0) S) S := by
  have := Inv_step s0 (ctor s0) [] S (Inv_ctor s0)
  simpa using this

theorem Inv.rotate {s0 : state_type} {h : farmhash} {S : List Nat} (inv : Inv s0 h S)
    (hn : 64 < S.length) (i : Nat) (hi : i < 64) :
    std_rotate h.state_.buffer_ h.buffer_next_ 64 i = Ptr.ofList S (S.length - 64 + i) := by
  have hc := inv.cursor
  have hc64 := inv.cursor_le
  have hbl : 64 * nblocks S.length < S.length := by unfold nblocks; omega
  unfold std_rotate
  simp only [hi, if_true]
  by_cases h2 : i + h.buffer_next_ < 64
  · simp only [h2, if_true]
    rw [inv.buf_hi hn _ (by omega) h2]
    congr 1; omega
  · simp only [h2, if_false]
    rw [inv.buf_lo _ (by omega)]
    congr 1; omega

theorem Inv.buffer_short {s0 : state_type} {h : farmhash} {S : List Nat} (inv : Inv s0 h S)
    (hn : S.length ≤ 64) :
    h.mixed_ = false ∧ h.buffer_next_ = S.length ∧
      ∀ i, i < S.length → h.state_.buffer_ i = Ptr.ofList S i := by
  have hn0 : nblocks S.length = 0 := by unfold nblocks; omega
  have hcur : h.buffer_next_ = S.length := by rw [inv.cursor, hn0]; omega
  refine ⟨by rw [inv.mixed, decide_eq_false (by omega)], hcur, ?_⟩
  intro i hi
  have := inv.buf_lo i (by omega)
  rw [hn0] at this
  simpa using this

/-- The conversion of a hasher to which `S` has been appended returns
`Hash64(S, |S|)`. -/
theorem Inv.result {s0 : state_type} {h : farmhash} {S : List Nat} (inv : Inv s0 h S) :
    (operator_result_type h).1 = direct.farmhash.Hash64 (Ptr.ofList S) S.length := by
  have hc := inv.cursor
  by_cases hn : 64 < S.length
  · have hm : h.mixed_ = true := by rw [inv.mixed, decide_eq_true hn]
    have hbl : 64 * nblocks S.length < S.length := by unfold nblocks; omega
    rw [Hash64_long _ _ hn, ← (inv.long hn).1]
    simp only [operator_result_type, hm, Bool.not_true, Bool.false_eq_true, if_false]
    apply final_mix_value
    · intro i hi; exact inv.rotate hn i hi
    · rw [and_63, and_63, hc]; unfold nblocks; omega
  · obtain ⟨hm, hcur, hbuf⟩ := inv.buffer_short (by omega)
    simp only [operator_result_type, hm, Bool.not_false, if_true, hcur,
      direct.farmhash.Hash64]
    by_cases h32 : S.length ≤ 32
    · by_cases h16 : S.length ≤ 16
      · simp only [h32, h16, if_true]
        exact HashLen0to16_congr _ _ _ hbuf
      · simp only [h32, h16, if_true, if_false]
        exact HashLen17to32_congr _ _ _ (by omega) hbuf
    · have h64 : S.length ≤ 64 := by omega
      simp only [h32, h64, if_true, if_false]
      exact HashLen33to64_congr _ _ _ (by omega) hbuf

/-- The conversion of an unmixed hasher changes nothing. -/
theorem operator_result_type_unmixed (h : farmhash) (hm : h.mixed_ = false) :
    (operator_result_type h).2 = h := by
  unfold operator_result_type
  simp only [hm, Bool.not_false, if_true]
  split
  · split <;> rfl
  · rfl

end hashing

namespace hashing

open farmhash farmhash.state_type

/-! ## The claims -/

/-- C1. Chunk independence: for every byte sequence cut into consecutive chunks,
appending the chunks one call at a time to a fresh hasher and converting
returns the same value as appending their concatenation in a single call to
a fresh hasher (on any other state) and converting. -/
theorem C1_chunk_independence (s1 s2 : state_type) (chunks : List (List Nat)) :
    (operator_result_type (chunks.foldl hash_combine_range (ctor s1))).1
      = (operator_result_type (hash_combine_range (ctor s2) chunks.flatten)).1 := by
  have h1 := (Inv_feed s1 chunks).result
  have h2 := (Inv_once s2 chunks.flatten).result
  unfold feed at h1
  rw [h1, h2]

/-- C2. Long inputs: a fresh hasher fed more than 64 bytes in one call and then
converted returns `Hash64` of those bytes. -/
theorem C2_long_input_agrees_with_Hash64 (s : state_type) (S : List Nat)
    (hlen : 64 < S.length) :
    (operator_result_type (hash_combine_range (ctor s) S)).1
      = direct.farmhash.Hash64 (Ptr.ofList S) S.length ∧
    (hash_combine_range (ctor s) S).mixed_ = true := by
  have inv := Inv_once s S
  exact ⟨inv.result, by rw [inv.mixed, decide_eq_true hlen]⟩

/-- Witness of C2 on 65 zero bytes. -/
theorem C2_long_input_witness :
    64 < (List.replicate 65 0).length ∧
    (operator_result_type (hash_combine_range (ctor garbage) (List.replicate 65 0))).1
      = direct.farmhash.Hash64 (Ptr.ofList (List.replicate 65 0)) (List.replicate 65 0).length :=
  ⟨by decide, (C2_long_input_agrees_with_Hash64 garbage (List.replicate 65 0) (by decide)).1⟩

/-- C3. Short inputs: a fresh hasher fed at most 64 bytes and converted returns
`Hash64` of those bytes; the conversion is `HashLen0to16` of the buffer for
lengths up to 16, `HashLen17to32` up to 32 and `HashLen33to64` up to 64, the
bands of `Hash64`; and neither the append nor the conversion has called
`initialize`, `mix` or `final_mix`. -/
theorem C3_short_input_agrees_with_Hash64 (s : state_type) (S : List Nat)
    (hlen : S.length ≤ 64) :
    (operator_result_type (hash_combine_range (ctor s) S)).1
      = direct.farmhash.Hash64 (Ptr.ofList S) S.length ∧
    (operator_result_type (hash_combine_range (ctor s) S)).1
      = (if S.length ≤ 16 then
          HashLen0to16 (hash_combine_range (ctor s) S).state_.buffer_ S.length
        else if S.length ≤ 32 then
          HashLen17to32 (hash_combine_range (ctor s) S).state_.buffer_ S.length
        else HashLen33to64 (hash_combine_range (ctor s) S).state_.buffer_ S.length) ∧
    direct.farmhash.Hash64 (Ptr.ofList S) S.length
      = (if S.length ≤ 16 then direct.farmhash.HashLen0to16 (Ptr.ofList S) S.length
        else if S.length ≤ 32 then direct.farmhash.HashLen17to32 (Ptr.ofList S) S.length
        else direct.farmhash.HashLen33to64 (Ptr.ofList S) S.length) ∧
    (operator_result_type (hash_combine_range (ctor s) S)).2.state_.trace_ = [] := by
  have inv := Inv_once s S
  obtain ⟨hm, hcur, _⟩ := inv.buffer_short hlen
  refine ⟨inv.result, ?_, ?_, ?_⟩
  · simp only [operator_result_type, hm, Bool.not_false, if_true, hcur]
    by_cases h16 : S.length ≤ 16
    · have h32 : S.length ≤ 32 := by omega
      simp only [h16, h32, if_true]
    · by_cases h32 : S.length ≤ 32
      · simp only [h16, h32, if_true, if_false]
      · simp only [h16, h32, if_false]
  · simp only [direct.farmhash.Hash64]
    by_cases h16 : S.length ≤ 16
    · have h32 : S.length ≤ 32 := by omega
      simp only [h16, h32, if_true]
    · by_cases h32 : S.length ≤ 32
      · simp only [h16, h32, if_true, if_false]
      · simp only [h16, h32, hlen, if_true, if_false]
  · rw [operator_result_type_unmixed _ hm]
    exact (inv.short hlen).2

/-- Witness of C3 on the 64 bytes 0, 1, ..., 63. -/
theorem C3_short_input_witness :
    (List.range 64).length ≤ 64 ∧
    (operator_result_type (hash_combine_range (ctor garbage) (List.range 64))).1
      = direct.farmhash.Hash64 (Ptr.ofList (List.range 64)) (List.range 64).length :=
  ⟨by decide, (C3_short_input_agrees_with_Hash64 garbage (List.range 64) (by decide)).1⟩

/-- C4. Empty input: a fresh hasher converted after any number of appends of
the empty range returns `k2 = 0x9ae16a3b2f90404f`, and `Hash64` returns the
same constant on an input of length 0. -/
theorem C4_empty_input (s : state_type) (k : Nat) (p : Ptr) :
    (operator_result_type (feed s (List.replicate k []))).1 = 0x9ae16a3b2f90404f ∧
    state_type.k2 = 0x9ae16a3b2f90404f ∧
    direct.farmhash.Hash64 p 0 = 0x9ae16a3b2f90404f := by
  have inv := Inv_feed s (List.replicate k [])
  have hflat : (List.replicate k ([] : List Nat)).flatten = [] := by
    induction k with
    | zero => rfl
    | succ k ih => simp [List.replicate_succ, ih]
  rw [hflat] at inv
  refine ⟨?_, rfl, rfl⟩
  rw [inv.result]
  rfl

end hashing

namespace hashing

open farmhash farmhash.state_type

set_option maxRecDepth 100000 in
/-- C5, the claim as stated fails. On the hasher of the test (8 bytes appended)
the first, second and third conversion all return the hash value
12903427741618376446, and a `hash_combine_range` after a conversion goes on
buffering: the cursor moves from 8 to 9 and the next conversion returns
`Hash64` of the 9 bytes. Nothing is signalled. -/
theorem C5_counterexample :
    (operator_result_type test_code1).1 = 12903427741618376446 ∧
    (operator_result_type (operator_result_type test_code1).2).1 = 12903427741618376446 ∧
    (operator_result_type
      (operator_result_type (operator_result_type test_code1).2).2).1
        = 12903427741618376446 ∧
    (hash_combine_range (operator_result_type test_code1).2 [5]).buffer_next_ = 9 ∧
    (operator_result_type (hash_combine_range (operator_result_type test_code1).2 [5])).1
      = direct.farmhash.Hash64 (Ptr.ofList [17, 0, 0, 0, 1, 0, 0, 0, 5]) 9 := by
  decide

/-- C5, amended. Misuse is not rejected. A conversion leaves `buffer_next_` and
`mixed_` as they were, and when `mixed_` is false it leaves the whole hasher
as it was: a second conversion returns what the first returned, and a
`hash_combine_range` after a conversion does what it would have done without
the conversion. -/
theorem C5_misuse_not_rejected (h : farmhash) (C : List Nat) :
    (operator_result_type h).2.buffer_next_ = h.buffer_next_ ∧
    (operator_result_type h).2.mixed_ = h.mixed_ ∧
    (h.mixed_ = false →
      operator_result_type (operator_result_type h).2 = operator_result_type h ∧
      hash_combine_range (operator_result_type h).2 C = hash_combine_range h C) := by
  have hframe : (operator_result_type h).2.buffer_next_ = h.buffer_next_ ∧
      (operator_result_type h).2.mixed_ = h.mixed_ := by
    cases hm : h.mixed_ with
    | false => rw [operator_result_type_unmixed h hm]; exact ⟨rfl, hm⟩
    | true =>
      simp only [operator_result_type, hm, Bool.not_true, Bool.false_eq_true, if_false]
      exact ⟨trivial, trivial⟩
  refine ⟨hframe.1, hframe.2, ?_⟩
  intro hm
  rw [operator_result_type_unmixed h hm]
  exact ⟨rfl, rfl⟩

set_option maxRecDepth 100000 in
/-- Witness of the amended C5 on the hasher of the test. -/
theorem C5_misuse_not_rejected_witness :
    test_code1.mixed_ = false ∧
    operator_result_type (operator_result_type test_code1).2 = operator_result_type test_code1 ∧
    hash_combine_range (operator_result_type test_code1).2 [5]
      = hash_combine_range test_code1 [5] :=
  ⟨by decide, (C5_misuse_not_rejected test_code1 [5]).2.2 (by decide)⟩

/-- C6. Determinism: two hashers built on any two uninitialised states and fed
the same chunks return the same value, which is `Hash64` of the appended
bytes. -/
theorem C6_result_independent_of_storage (s1 s2 : state_type) (chunks : List (List Nat)) :
    (operator_result_type (feed s1 chunks)).1 = (operator_result_type (feed s2 chunks)).1 ∧
    (operator_result_type (feed s1 chunks)).1
      = direct.farmhash.Hash64 (Ptr.ofList chunks.flatten) chunks.flatten.length := by
  have h1 := (Inv_feed s1 chunks).result
  have h2 := (Inv_feed s2 chunks).result
  exact ⟨h1.trans h2.symm, h1⟩

/-- C7. Cursor invariant: after chunks of `n` bytes in total the cursor is 0
exactly when `n = 0`; for `n ≥ 1` it lies in `[1, 64]` and is
`(n - 1) % 64 + 1`, hence `n` when `n ≤ 64` and 64 when `n` is a positive
multiple of 64. -/
theorem C7_cursor_invariant (s : state_type) (chunks : List (List Nat)) :
    ((feed s chunks).buffer_next_ = 0 ↔ chunks.flatten.length = 0) ∧
    (1 ≤ chunks.flatten.length →
      1 ≤ (feed s chunks).buffer_next_ ∧ (feed s chunks).buffer_next_ ≤ 64 ∧
      (feed s chunks).buffer_next_ = (chunks.flatten.length - 1) % 64 + 1) ∧
    (chunks.flatten.length ≤ 64 → (feed s chunks).buffer_next_ = chunks.flatten.length) ∧
    (1 ≤ chunks.flatten.length → chunks.flatten.length % 64 = 0 →
      (feed s chunks).buffer_next_ = 64) := by
  have hc := (Inv_feed s chunks).cursor
  unfold nblocks at hc
  refine ⟨?_, ?_, ?_, ?_⟩
  · constructor <;> intro h <;> omega
  · intro h; omega
  · intro h; omega
  · intro h1 h2; omega

set_option maxRecDepth 100000 in
/-- Witness of C7: 128 bytes in two chunks of 100 and 28 leave the cursor at 64. -/
theorem C7_cursor_invariant_witness :
    (feed garbage [List.replicate 100 7, List.replicate 28 9]).buffer_next_ = 64 :=
  (C7_cursor_invariant garbage [List.replicate 100 7, List.replicate 28 9]).2.2.2
    (by decide) (by decide)

/-- C8. The flag `mixed_` is true exactly when more than 64 bytes have been
appended. -/
theorem C8_mixed_iff_more_than_64 (s : state_type) (chunks : List (List Nat)) :
    (feed s chunks).mixed_ = true ↔ 64 < chunks.flatten.length := by
  rw [(Inv_feed s chunks).mixed]
  exact decide_eq_true_iff

/-- C9. In every hasher reached from a fresh one, if `mixed_` is true then the
cursor is in `[1, 64]`, `initialize` has run (once, followed by at least one
`mix`) and the rolling state is the one `Hash64` has after its loop; the
conversion then is `final_mix` at the cursor; and a conversion calls
`final_mix` only if `mixed_` is true. -/
theorem C9_final_mix_precondition (s : state_type) (chunks : List (List Nat)) :
    ((feed s chunks).mixed_ = true →
      1 ≤ (feed s chunks).buffer_next_ ∧ (feed s chunks).buffer_next_ ≤ 64 ∧
      (feed s chunks).state_.trace_
        = Call.initialize_ :: List.replicate (nblocks chunks.flatten.length) Call.mix_ ∧
      1 ≤ nblocks chunks.flatten.length ∧
      (feed s chunks).state_.rolling
        = direct.farmhash.Hash64.after (Ptr.ofList chunks.flatten)
            (nblocks chunks.flatten.length) ∧
      (operator_result_type (feed s chunks)).1
        = (final_mix (feed s chunks).state_ (feed s chunks).buffer_next_).1) ∧
    (Call.final_mix_ ∈ (operator_result_type (feed s chunks)).2.state_.trace_ →
      (feed s chunks).mixed_ = true) := by
  have inv := Inv_feed s chunks
  have hc := inv.cursor
  constructor
  · intro hm
    have hn : 64 < chunks.flatten.length := by
      rw [inv.mixed] at hm
      exact of_decide_eq_true hm
    obtain ⟨hr, ht⟩ := inv.long hn
    refine ⟨?_, ?_, ht, ?_, hr, ?_⟩
    · rw [hc]; unfold nblocks; omega
    · exact inv.cursor_le
    · unfold nblocks; omega
    · simp only [operator_result_type, hm, Bool.not_true, Bool.false_eq_true, if_false]
  · intro hmem
    by_cases hn : 64 < chunks.flatten.length
    · rw [inv.mixed]; exact decide_eq_true hn
    · have hm := (inv.buffer_short (by omega)).1
      rw [operator_result_type_unmixed _ hm, (inv.short (by omega)).2] at hmem
      simp at hmem

set_option maxRecDepth 100000 in
/-- Witness of C9 on 65 bytes appended one byte per call. -/
theorem C9_final_mix_precondition_witness :
    (feed garbage (List.replicate 65 [1])).mixed_ = true ∧
    1 ≤ (feed garbage (List.replicate 65 [1])).buffer_next_ ∧
    (feed garbage (List.replicate 65 [1])).buffer_next_ ≤ 64 :=
  ⟨by decide,
   ((C9_final_mix_precondition garbage (List.replicate 65 [1])).1 (by decide)).1,
   ((C9_final_mix_precondition garbage (List.replicate 65 [1])).1 (by decide)).2.1⟩

/-- C10. Frame of a fitting append: with the cursor `c ≤ 64` and a chunk of
`k ≤ 64 - c` bytes, `hash_combine_range` calls neither `initialize` nor `mix`,
leaves `x_, y_, z_, v_, w_`, `mixed_` and every buffer byte outside
`[c, c + k)` unchanged, writes the chunk to `[c, c + k)` and sets the cursor
to `c + k`. -/
theorem C10_fitting_append_frame (h : farmhash) (C : List Nat)
    (hc : h.buffer_next_ ≤ 64) (hk : C.length ≤ 64 - h.buffer_next_) :
    (hash_combine_range h C).state_.trace_ = h.state_.trace_ ∧
    (hash_combine_range h C).state_.x_ = h.state_.x_ ∧
    (hash_combine_range h C).state_.y_ = h.state_.y_ ∧
    (hash_combine_range h C).state_.z_ = h.state_.z_ ∧
    (hash_combine_range h C).state_.v_ = h.state_.v_ ∧
    (hash_combine_range h C).state_.w_ = h.state_.w_ ∧
    (hash_combine_range h C).mixed_ = h.mixed_ ∧
    (∀ i, ¬ (h.buffer_next_ ≤ i ∧ i < h.buffer_next_ + C.length) →
      (hash_combine_range h C).state_.buffer_ i = h.state_.buffer_ i) ∧
    (∀ j (hj : j < C.length),
      (hash_combine_range h C).state_.buffer_ (h.buffer_next_ + j) = C[j]) ∧
    (hash_combine_range h C).buffer_next_ = h.buffer_next_ + C.length := by
  rw [hash_combine_range_fit h C hc hk]
  refine ⟨rfl, rfl, rfl, rfl, rfl, rfl, rfl, ?_, ?_, rfl⟩
  · intro i hi
    show memcpy h.state_.buffer_ h.buffer_next_ C C.length i = _
    unfold memcpy
    simp only [hi, if_false]
  · intro j hj
    show memcpy h.state_.buffer_ h.buffer_next_ C C.length (h.buffer_next_ + j) = _
    unfold memcpy
    have h1 : h.buffer_next_ ≤ h.buffer_next_ + j := Nat.le_add_right _ _
    have h2 : h.buffer_next_ + j < h.buffer_next_ + C.length := by omega
    simp only [h1, h2, and_self, if_true, Nat.add_sub_cancel_left]
    rw [List.getD_eq_getElem _ _ hj]

set_option maxRecDepth 100000 in
/-- Witness of C10: two more bytes appended to the hasher of the test. -/
theorem C10_fitting_append_frame_witness :
    test_code1.buffer_next_ ≤ 64 ∧ [9, 9].length ≤ 64 - test_code1.buffer_next_ ∧
    (hash_combine_range test_code1 [9, 9]).state_.trace_ = test_code1.state_.trace_ ∧
    (hash_combine_range test_code1 [9, 9]).buffer_next_ = test_code1.buffer_next_ + [9, 9].length :=
  ⟨by decide, by decide,
   (C10_fitting_append_frame test_code1 [9, 9] (by decide) (by decide)).1,
   (C10_fitting_append_frame test_code1 [9, 9] (by decide) (by decide)).2.2.2.2.2.2.2.2.2⟩

end hashing

/-! ## Appending in two calls or in one -/

namespace hashing

open farmhash farmhash.state_type

theorem memcpy_memcpy (b : Ptr) (c : Nat) (A B : List Nat) (n : Nat) :
    memcpy (memcpy b c A A.length) (c + A.length) B n = memcpy b c (A ++ B) (A.length + n) := by
  funext i
  unfold memcpy
  by_cases h1 : c + A.length ≤ i ∧ i < c + A.length + n
  · have h2 : c ≤ i ∧ i < c + (A.length + n) := by omega
    rw [if_pos h1, if_pos h2, List.getD_append_right _ _ _ _ (by omega)]
    congr 1; omega
  · rw [if_neg h1]
    by_cases h3 : c ≤ i ∧ i < c + A.length
    · have h2 : c ≤ i ∧ i < c + (A.length + n) := by omega
      rw [if_pos h3, if_pos h2, List.getD_append _ _ _ _ (by omega)]
    · have h2 : ¬ (c ≤ i ∧ i < c + (A.length + n)) := by omega
      rw [if_neg h3, if_neg h2]

theorem memcpy_append_left (b : Ptr) (c : Nat) (A B : List Nat) (n : Nat) (hn : n ≤ A.length) :
    memcpy b c (A ++ B) n = memcpy b c A n := by
  funext i
  unfold memcpy
  by_cases h1 : c ≤ i ∧ i < c + n
  · rw [if_pos h1, if_pos h1, List.getD_append _ _ _ _ (by omega)]
  · rw [if_neg h1, if_neg h1]

theorem memcpy_zero (b : Ptr) (c : Nat) (A : List Nat) : memcpy b c A 0 = b := by
  funext i
  unfold memcpy
  have h1 : ¬ (c ≤ i ∧ i < c + 0) := by omega
  rw [if_neg h1]

theorem loop_short (fuel : Nat) (st : state_type) (rest : List Nat) (h : rest.length ≤ 64) :
    hash_combine_range.loop fuel st rest = (st, rest) := by
  cases fuel with
  | zero => rfl
  | succ f =>
    have : ¬ rest.length > 64 := by omega
    simp only [hash_combine_range.loop, this, if_false]

theorem loop_step (fuel : Nat) (st : state_type) (rest : List Nat) (h : 64 < rest.length) :
    hash_combine_range.loop (fuel + 1) st rest
      = hash_combine_range.loop fuel
          (mix { st with buffer_ := memcpy st.buffer_ 0 rest 64 }) (rest.drop 64) := by
  have : rest.length > 64 := h
  simp only [hash_combine_range.loop, this, if_true]

/-- The result of the loop does not depend on the fuel once there is enough. -/
theorem loop_fuel : ∀ (f1 f2 : Nat) (st : state_type) (rest : List Nat),
    rest.length ≤ 64 + 64 * f1 → rest.length ≤ 64 + 64 * f2 →
    hash_combine_range.loop f1 st rest = hash_combine_range.loop f2 st rest := by
  intro f1
  induction f1 with
  | zero =>
    intro f2 st rest h1 _
    rw [loop_short 0 st rest (by omega), loop_short f2 st rest (by omega)]
  | succ f1 ih =>
    intro f2 st rest h1 h2
    by_cases hgt : 64 < rest.length
    · cases f2 with
      | zero => omega
      | succ f2 =>
        rw [loop_step f1 st rest hgt, loop_step f2 st rest hgt]
        apply ih
        · rw [List.length_drop]; omega
        · rw [List.length_drop]; omega
    · rw [loop_short _ st rest (by omega), loop_short _ st rest (by omega)]

/-- With enough fuel the loop leaves at most 64 bytes, and at least one
when it was given at least one. -/
theorem loop_rest_length : ∀ (fuel : Nat) (st : state_type) (rest : List Nat),
    rest.length ≤ 64 + 64 * fuel →
    (hash_combine_range.loop fuel st rest).2.length ≤ 64 ∧
    (1 ≤ rest.length → 1 ≤ (hash_combine_range.loop fuel st rest).2.length) := by
  intro fuel
  induction fuel with
  | zero =>
    intro st rest h
    rw [loop_short 0 st rest (by omega)]
    exact ⟨by show rest.length ≤ 64; omega, fun h1 => h1⟩
  | succ f ih =>
    intro st rest h
    by_cases hgt : 64 < rest.length
    · rw [loop_step f st rest hgt]
      have := ih (mix { st with buffer_ := memcpy st.buffer_ 0 rest 64 }) (rest.drop 64)
        (by rw [List.length_drop]; omega)
      refine ⟨this.1, fun _ => this.2 (by rw [List.length_drop]; omega)⟩
    · rw [loop_short _ st rest (by omega)]
      exact ⟨by show rest.length ≤ 64; omega, fun h1 => h1⟩

theorem loop_rest_le : ∀ (fuel : Nat) (st : state_type) (rest : List Nat),
    (hash_combine_range.loop fuel st rest).2.length ≤ rest.length := by
  intro fuel
  induction fuel with
  | zero => intro st rest; exact Nat.le_refl _
  | succ f ih =>
    intro st rest
    by_cases hgt : 64 < rest.length
    · rw [loop_step f st rest hgt]
      have := ih (mix { st with buffer_ := memcpy st.buffer_ 0 rest 64 }) (rest.drop 64)
      rw [List.length_drop] at this
      omega
    · rw [loop_short _ st rest (by omega)]

/-- The loop on `X ++ Y` passes through the point where the loop on `X` stops. -/
theorem loop_append : ∀ (fuel : Nat) (st : state_type) (X Y : List Nat),
    (X ++ Y).length ≤ 64 + 64 * fuel →
    hash_combine_range.loop fuel st (X ++ Y)
      = hash_combine_range.loop fuel (hash_combine_range.loop fuel st X).1
          ((hash_combine_range.loop fuel st X).2 ++ Y) := by
  intro fuel
  induction fuel with
  | zero =>
    intro st X Y h
    rw [List.length_append] at h
    rw [loop_short 0 st X (by omega)]
  | succ f ih =>
    intro st X Y h
    rw [List.length_append] at h
    by_cases hgt : 64 < X.length
    · have hgt2 : 64 < (X ++ Y).length := by rw [List.length_append]; omega
      rw [loop_step f st X hgt, loop_step f st (X ++ Y) hgt2,
        memcpy_append_left _ _ _ _ _ (by omega), List.drop_append_of_le_length (by omega)]
      have h3 : (List.drop 64 X ++ Y).length ≤ 64 + 64 * f := by
        rw [List.length_append, List.length_drop]; omega
      rw [ih _ _ _ h3]
      apply loop_fuel
      · have := loop_rest_le f (mix { st with buffer_ := memcpy st.buffer_ 0 X 64 })
          (List.drop 64 X)
        rw [List.length_drop] at this
        rw [List.length_append]
        omega
      · have := loop_rest_le f (mix { st with buffer_ := memcpy st.buffer_ 0 X 64 })
          (List.drop 64 X)
        rw [List.length_drop] at this
        rw [List.length_append]
        omega
    · rw [loop_short _ st X (by omega)]

theorem hash_combine_range_saturate (h : farmhash) (C : List Nat) (hc : h.buffer_next_ ≤ 64)
    (hbig : ¬ C.length ≤ 64 - h.buffer_next_) :
    hash_combine_range h C
      = saturate_end (hash_combine_range.loop C.length (mix (saturate_begin h C))
          (C.drop (64 - h.buffer_next_))) := by
  unfold hash_combine_range saturate_end saturate_begin
  simp only [buffer_remaining_eq _ hc, hbig, if_false]

theorem saturate_begin_congr (h1 h2 : farmhash) (A B : List Nat)
    (hm : h1.mixed_ = h2.mixed_)
    (hs : ({ h1.state_ with
        buffer_ := memcpy h1.state_.buffer_ h1.buffer_next_ A (64 - h1.buffer_next_) }
          : state_type)
      = { h2.state_ with
        buffer_ := memcpy h2.state_.buffer_ h2.buffer_next_ B (64 - h2.buffer_next_) }) :
    saturate_begin h1 A = saturate_begin h2 B := by
  unfold saturate_begin
  rw [hm, hs]

/-- Appending `A` and then `B` leaves the hasher that appending `A ++ B` leaves. -/
theorem hash_combine_range_append (h : farmhash) (A B : List Nat) (hc : h.buffer_next_ ≤ 64) :
    hash_combine_range (hash_combine_range h A) B = hash_combine_range h (A ++ B) := by
  by_cases hA : A.length ≤ 64 - h.buffer_next_
  · -- `A` fits
    rw [hash_combine_range_fit h A hc hA]
    by_cases hB : B.length ≤ 64 - (h.buffer_next_ + A.length)
    · have hAB : (A ++ B).length ≤ 64 - h.buffer_next_ := by
        rw [List.length_append]; omega
      rw [hash_combine_range_fit _ B (by show h.buffer_next_ + A.length ≤ 64; omega) hB,
        hash_combine_range_fit h (A ++ B) hc hAB]
      dsimp only
      rw [memcpy_memcpy, List.length_append, Nat.add_assoc]
    · have hAB : ¬ (A ++ B).length ≤ 64 - h.buffer_next_ := by
        rw [List.length_append]; omega
      rw [hash_combine_range_saturate _ B (by show h.buffer_next_ + A.length ≤ 64; omega) hB,
        hash_combine_range_saturate h (A ++ B) hc hAB]
      have hbegin : saturate_begin
          { h with
            state_ := { h.state_ with
              buffer_ := memcpy h.state_.buffer_ h.buffer_next_ A A.length },
            buffer_next_ := h.buffer_next_ + A.length } B
          = saturate_begin h (A ++ B) := by
        refine saturate_begin_congr _ _ _ _ ?_ ?_
        · rfl
        dsimp only
        rw [memcpy_memcpy]
        have e : A.length + (64 - (h.buffer_next_ + A.length)) = 64 - h.buffer_next_ := by
          omega
        rw [e]
      rw [hbegin]
      have hdrop : List.drop (64 - (h.buffer_next_ + A.length)) B
          = List.drop (64 - h.buffer_next_) (A ++ B) := by
        have e : 64 - h.buffer_next_ = A.length + (64 - (h.buffer_next_ + A.length)) := by
          omega
        rw [e, List.drop_append]
      dsimp only
      rw [hdrop]
      congr 1
      apply loop_fuel
      · rw [List.length_drop, List.length_append]; omega
      · rw [List.length_drop, List.length_append]; omega
  · -- `A` saturates the buffer
    have hAB : ¬ (A ++ B).length ≤ 64 - h.buffer_next_ := by
      rw [List.length_append]; omega
    rw [hash_combine_range_saturate h A hc hA, hash_combine_range_saturate h (A ++ B) hc hAB]
    have hbegin : saturate_begin h (A ++ B) = saturate_begin h A := by
      refine saturate_begin_congr _ _ _ _ ?_ ?_
      · rfl
      rw [memcpy_append_left _ _ _ _ _ (by omega)]
    rw [hbegin, List.drop_append_of_le_length (by omega)]
    generalize mix (saturate_begin h A) = stm
    have hA1 : 1 ≤ (List.drop (64 - h.buffer_next_) A).length := by
      rw [List.length_drop]; omega
    have hfuelA : (List.drop (64 - h.buffer_next_) A).length ≤ 64 + 64 * A.length := by
      rw [List.length_drop]; omega
    have hAB2 : (List.drop (64 - h.buffer_next_) A ++ B).length
        ≤ 64 + 64 * (A ++ B).length := by
      rw [List.length_append, List.length_append, List.length_drop]; omega
    rw [loop_append _ stm _ B hAB2,
      loop_fuel (A ++ B).length A.length stm (List.drop (64 - h.buffer_next_) A)
        (by rw [List.length_append, List.length_drop]; omega) hfuelA]
    obtain ⟨hr64, hr1⟩ := loop_rest_length A.length stm _ hfuelA
    have hrle := loop_rest_le A.length stm (List.drop (64 - h.buffer_next_) A)
    rw [List.length_drop] at hrle
    generalize hash_combine_range.loop A.length stm (List.drop (64 - h.buffer_next_) A) = r
      at hr64 hr1 hrle ⊢
    have hr1 := hr1 hA1
    by_cases hB : B.length ≤ 64 - r.2.length
    · rw [hash_combine_range_fit (saturate_end r) B hr64 hB,
        loop_short _ r.1 (r.2 ++ B) (by rw [List.length_append]; omega)]
      have e := memcpy_memcpy r.1.buffer_ 0 r.2 B B.length
      rw [Nat.zero_add] at e
      unfold saturate_end
      dsimp only
      rw [e, List.length_append]
    · rw [hash_combine_range_saturate (saturate_end r) B hr64 hB]
      have hgt : 64 < (r.2 ++ B).length := by rw [List.length_append]; omega
      have hf : (A ++ B).length = ((A ++ B).length - 1) + 1 := by
        rw [List.length_append]; omega
      rw [hf, loop_step _ r.1 (r.2 ++ B) hgt]
      have hst : mix (saturate_begin (saturate_end r) B)
          = mix { r.1 with buffer_ := memcpy r.1.buffer_ 0 (r.2 ++ B) 64 } := by
        congr 1
        have e := memcpy_memcpy r.1.buffer_ 0 r.2 B (64 - r.2.length)
        rw [Nat.zero_add] at e
        have e2 : r.2.length + (64 - r.2.length) = 64 := by omega
        unfold saturate_begin saturate_end
        dsimp only
        rw [e, e2]
        rfl
      have hdrop : List.drop (64 - (saturate_end r).buffer_next_) B
          = List.drop 64 (r.2 ++ B) := by
        show List.drop (64 - r.2.length) B = _
        have e : 64 = r.2.length + (64 - r.2.length) := by omega
        conv_rhs => rw [e, List.drop_append]
      rw [hst, hdrop]
      congr 1
      apply loop_fuel
      · rw [List.length_drop, List.length_append]; omega
      · rw [List.length_drop, List.length_append, List.length_append]; omega

theorem hash_combine_range_nil (h : farmhash) (hc : h.buffer_next_ ≤ 64) :
    hash_combine_range h [] = h := by
  rw [hash_combine_range_fit h [] hc (by simp)]
  dsimp only [List.length_nil]
  rw [memcpy_zero]
  rfl

end hashing

/-! ## Claims C11 to C16 -/

namespace hashing

open farmhash farmhash.state_type

/-- The rolling state after `mix()` on the first `k` blocks, started from the
initial state of the specification, is what `Hash64` has after `k` passes. -/
theorem mix_blocks_rolling (S : List Nat) (k : Nat) :
    (mix_blocks S k (initial_state S)).rolling
      = direct.farmhash.Hash64.after (Ptr.ofList S) k := by
  induction k with
  | zero => rfl
  | succ k ih =>
    simp only [mix_blocks, direct.farmhash.Hash64.after]
    rw [mix_rolling _ (Ptr.ofList S) (64 * k) (fun i _ => rfl)]
    exact congrArg _ ih

theorem mix_blocks_trace (S : List Nat) (k : Nat) (st : state_type) :
    (mix_blocks S k st).trace_ = st.trace_ ++ List.replicate k Call.mix_ := by
  induction k with
  | zero => simp [mix_blocks]
  | succ k ih =>
    simp only [mix_blocks, mix_trace]
    show (mix_blocks S k st).trace_ ++ [Call.mix_] = _
    rw [ih, List.replicate_succ', List.append_assoc]

/-- The state after `initialize()` on a buffer that holds the first block has
the rolling state of `initial_state`. -/
theorem initialize_eq_initial_state (st : state_type) (S : List Nat) :
    ( state_type.initialize { st with buffer_ := block S 0 }).rolling
      = (initial_state S).rolling := by
  rw [initialize_rolling _ (Ptr.ofList S) (fun i _ => by simp [block])]
  rfl

/-- C11. Repeated conversion of a short-input hasher: when at most 64 bytes
have been appended, the conversion leaves the hasher (buffer, cursor, flag and
rolling state) as it was, a second and a third conversion return the value of
the first, and that value is the one an independent hasher fed the same
chunks returns. -/
theorem C11_repeated_conversion_short (s s2 : state_type) (chunks : List (List Nat))
    (hlen : chunks.flatten.length ≤ 64) :
    (operator_result_type (feed s chunks)).2 = feed s chunks ∧
    (operator_result_type (operator_result_type (feed s chunks)).2).1
      = (operator_result_type (feed s chunks)).1 ∧
    (operator_result_type
      (operator_result_type (operator_result_type (feed s chunks)).2).2).1
      = (operator_result_type (feed s2 chunks)).1 := by
  have inv := Inv_feed s chunks
  have hm := (inv.buffer_short hlen).1
  have h1 := operator_result_type_unmixed _ hm
  rw [h1, h1]
  exact ⟨rfl, rfl, inv.result.trans (Inv_feed s2 chunks).result.symm⟩

set_option maxRecDepth 100000 in
/-- Witness of C11 on the two values of the test. -/
theorem C11_repeated_conversion_short_witness :
    [[17, 0, 0, 0], [1, 0, 0, 0]].flatten.length ≤ 64 ∧
    (operator_result_type
      (operator_result_type (feed garbage [[17, 0, 0, 0], [1, 0, 0, 0]])).2).1
      = (operator_result_type (feed garbage [[17, 0, 0, 0], [1, 0, 0, 0]])).1 :=
  ⟨by decide,
   (C11_repeated_conversion_short garbage garbage [[17, 0, 0, 0], [1, 0, 0, 0]]
     (by decide)).2.1⟩

/-- C12. Append homomorphism: from any hasher with the cursor in `[0, 64]`,
appending `A` and then `B` gives the very state that appending `A ++ B` gives
(cursor, flag, rolling state, buffer, and the calls made), and appending the
empty range changes nothing. -/
theorem C12_append_homomorphism (h : farmhash) (A B : List Nat)
    (hc : h.buffer_next_ ≤ 64) :
    hash_combine_range (hash_combine_range h A) B = hash_combine_range h (A ++ B) ∧
    hash_combine_range h [] = h :=
  ⟨hash_combine_range_append h A B hc, hash_combine_range_nil h hc⟩

set_option maxRecDepth 100000 in
/-- Witness of C12 on a hasher with the cursor at 64. -/
theorem C12_append_homomorphism_witness :
    full_hasher.buffer_next_ ≤ 64 ∧
    hash_combine_range (hash_combine_range full_hasher [1, 2, 3]) [4, 5]
      = hash_combine_range full_hasher ([1, 2, 3] ++ [4, 5]) ∧
    hash_combine_range full_hasher [] = full_hasher :=
  ⟨by decide, C12_append_homomorphism full_hasher [1, 2, 3] [4, 5] (by decide)⟩

/-- C13. Rolling state: after more than 64 bytes, however chunked, the rolling
state is the one `mix()` produces on the first `(n - 1) / 64` blocks of the
input from the initial state of the specification; `initialize()` has been
called once, before the first `mix()`, and its result on the first block is
that initial state. -/
theorem C13_rolling_state (s : state_type) (chunks : List (List Nat))
    (hlen : 64 < chunks.flatten.length) :
    (feed s chunks).state_.rolling
      = (mix_blocks chunks.flatten ((chunks.flatten.length - 1) / 64)
          (initial_state chunks.flatten)).rolling ∧
    (feed s chunks).state_.trace_
      = Call.initialize_ :: List.replicate ((chunks.flatten.length - 1) / 64) Call.mix_ ∧
    ( state_type.initialize { s with buffer_ := block chunks.flatten 0 }).rolling
      = (initial_state chunks.flatten).rolling := by
  have inv := Inv_feed s chunks
  obtain ⟨hr, ht⟩ := inv.long hlen
  refine ⟨?_, ht, initialize_eq_initial_state s _⟩
  rw [hr, mix_blocks_rolling]
  rfl

set_option maxRecDepth 100000 in
/-- Witness of C13 on 130 bytes appended in chunks of 13. -/
theorem C13_rolling_state_witness :
    64 < (List.replicate 10 (List.range 13)).flatten.length ∧
    (feed garbage (List.replicate 10 (List.range 13))).state_.trace_
      = Call.initialize_
        :: List.replicate (((List.replicate 10 (List.range 13)).flatten.length - 1) / 64)
            Call.mix_ :=
  ⟨by decide, (C13_rolling_state garbage (List.replicate 10 (List.range 13)) (by decide)).2.1⟩

/-- C14. Circular-buffer restoration: after more than 64 bytes, the rotation
at the start of `final_mix` on the trailing length `len = cursor` leaves the
last 64 bytes of the input in the buffer, in input order; this rotated
buffer is the one `final_mix` leaves; and a rotation by 64 changes no byte. -/
theorem C14_buffer_restoration (s : state_type) (chunks : List (List Nat))
    (hlen : 64 < chunks.flatten.length) :
    (List.range 64).map
        (std_rotate (feed s chunks).state_.buffer_ (feed s chunks).buffer_next_ 64)
      = chunks.flatten.drop (chunks.flatten.length - 64) ∧
    (final_mix (feed s chunks).state_ (feed s chunks).buffer_next_).2.buffer_
      = std_rotate (feed s chunks).state_.buffer_ (feed s chunks).buffer_next_ 64 ∧
    (∀ (b : Ptr) (i : Nat), std_rotate b 64 64 i = b i) := by
  have inv := Inv_feed s chunks
  refine ⟨?_, rfl, ?_⟩
  · apply List.ext_getElem
    · rw [List.length_map, List.length_range, List.length_drop]; omega
    · intro i h1 h2
      rw [List.length_map, List.length_range] at h1
      rw [List.getElem_map, List.getElem_range, inv.rotate hlen i h1, List.getElem_drop]
      unfold Ptr.ofList
      rw [List.getD_eq_getElem]
  · intro b i
    unfold std_rotate
    by_cases hi : i < 64
    · have h2 : ¬ i + 64 < 64 := by omega
      simp only [hi, h2, if_true, if_false, Nat.add_sub_cancel]
    · simp only [hi, if_false]

set_option maxRecDepth 100000 in
/-- Witness of C14 on 100 bytes appended in one call. -/
theorem C14_buffer_restoration_witness :
    64 < [List.range 100].flatten.length ∧
    (List.range 64).map
        (std_rotate (feed garbage [List.range 100]).state_.buffer_
          (feed garbage [List.range 100]).buffer_next_ 64)
      = [List.range 100].flatten.drop ([List.range 100].flatten.length - 64) :=
  ⟨by decide, (C14_buffer_restoration garbage [List.range 100] (by decide)).1⟩

end hashing

namespace hashing

open farmhash farmhash.state_type

theorem add_mod_left3 (a b c : Nat) : (a % 2 ^ 64 + b + c) % 2 ^ 64 = (a + b + c) % 2 ^ 64 := by
  omega

theorem add_mod_mid3 (a b c : Nat) : (a + b % 2 ^ 64 + c) % 2 ^ 64 = (a + b + c) % 2 ^ 64 := by
  omega

theorem add_mod_right2 (a b : Nat) : (a + b % 2 ^ 64) % 2 ^ 64 = (a + b) % 2 ^ 64 := by
  omega

/-- In the range `1 ≤ len ≤ 64` the masked `size_t` value `(len - 1) & 63` is
`len - 1`. -/
theorem final_mix_mask (len : Nat) (h1 : 1 ≤ len) (h64 : len ≤ 64) :
    ((len + (2 ^ 64 - 1)) % 2 ^ 64) &&& 63 = len - 1 := by
  rw [and_63]; omega

/-- C15. Block mixer closed form: the rolling state after `mix()` is the
closed form of the specification on the old rolling state and the eight
little-endian words of the buffer, it is the result of one pass of the loop
body of `Hash64` on the 64 bytes of the buffer, and `mix()` leaves the buffer
as it was. -/
theorem C15_mix_closed_form (st : state_type) :
    (mix st).rolling = spec.block_mixer st.rolling (fun i => Fetch64 st.buffer_ (8 * i)) ∧
    (mix st).rolling = direct.farmhash.Hash64.body st.buffer_ 0 st.rolling ∧
    (mix st).buffer_ = st.buffer_ := by
  refine ⟨?_, mix_rolling st st.buffer_ 0 (fun i _ => by rw [Nat.zero_add]), rfl⟩
  simp only [mix, rolling, spec.block_mixer, spec.weakHash, WeakHashLen32WithSeeds, word,
    add_mod_left3]

/-- C16. Finalizer formula: for a trailing length `1 ≤ len ≤ 64`, `final_mix`
returns the value of the formula of the specification on the rolling state
and the eight words of the rotated buffer, with `len - 1` folded in (the
mask by 63 changes nothing); this is the last round of `Hash64` on the
rotated buffer. -/
theorem C16_final_mix_formula (st : state_type) (len : Nat) (h1 : 1 ≤ len) (h64 : len ≤ 64) :
    (final_mix st len).1
      = spec.finalizer st.rolling
          (fun i => Fetch64 (std_rotate st.buffer_ len 64) (8 * i)) len ∧
    ((len + (2 ^ 64 - 1)) % 2 ^ 64) &&& 63 = len - 1 ∧
    (final_mix st len).1
      = direct.farmhash.Hash64.final (std_rotate st.buffer_ len 64) 0 len st.rolling := by
  have hmask := final_mix_mask len h1 h64
  refine ⟨?_, hmask, ?_⟩
  · simp only [final_mix, rolling, spec.finalizer, spec.weakHash, WeakHashLen32WithSeeds,
      hmask, add_mod_left3, add_mod_mid3, add_mod_right2]
  · apply final_mix_value st len _ 0 len (fun i _ => by rw [Nat.zero_add])
    rw [hmask, and_63]; omega

set_option maxRecDepth 100000 in
/-- Witness of C16 at the trailing length 64. -/
theorem C16_final_mix_formula_witness :
    (final_mix garbage 64).1
      = spec.finalizer garbage.rolling
          (fun i => Fetch64 (std_rotate garbage.buffer_ 64 64) (8 * i)) 64 :=
  (C16_final_mix_formula garbage 64 (by decide) (by decide)).1

end hashing

/-! ## Claims C17 to C20 -/

namespace hashing

open farmhash farmhash.state_type

/-- Multiplication by an odd number is a bijection of the 64-bit words. -/
theorem mul_odd_bijective (m : Nat) (hm : m % 2 = 1) :
    spec.bijective_on_u64 (fun x => (x * m) % 2 ^ 64) := by
  have hcop : Nat.Coprime (2 ^ 64) m :=
    Nat.Coprime.pow_left 64 (Nat.coprime_two_left.mpr (Nat.odd_iff.mpr hm))
  refine ⟨fun x _ => Nat.mod_lt _ (by norm_num), ?_, ?_⟩
  · intro x y hx hy hxy
    have h1 : x ≡ y [MOD 2 ^ 64] := Nat.ModEq.cancel_right_of_coprime hcop hxy
    have h2 : x % 2 ^ 64 = y % 2 ^ 64 := h1
    rwa [Nat.mod_eq_of_lt hx, Nat.mod_eq_of_lt hy] at h2
  · intro y hy
    obtain ⟨m', hm'⟩ := Nat.exists_mul_emod_eq_one_of_coprime hcop.symm (by norm_num)
    refine ⟨(y * m') % 2 ^ 64, Nat.mod_lt _ (by norm_num), ?_⟩
    show (y * m') % 2 ^ 64 * m % 2 ^ 64 = y
    rw [Nat.mod_mul_mod, Nat.mul_assoc, Nat.mul_comm m' m, Nat.mul_mod, hm', Nat.mul_one,
      Nat.mod_mod, Nat.mod_eq_of_lt hy]

theorem short_mul_odd (len : Nat) : ((k2 + len * 2) % 2 ^ 64) % 2 = 1 := by
  unfold k2; omega

theorem final_mul_odd (z : Nat) : ((k1 + ((z &&& 0xff) <<< 1) % 2 ^ 64) % 2 ^ 64) % 2 = 1 := by
  rw [Nat.shiftLeft_eq]
  unfold k1; omega

/-- C17. Every multiplier is odd: `k0`, `k1`, `k2` (in both files), the
multiplier `k2 + len * 2` of the three short formulas for every `len`, and the
multiplier `k1 + ((z & 0xff) << 1)` of `final_mix` for every `z`; and the
multiplication of 64-bit words by each of them is a bijection. -/
theorem C17_multipliers_odd :
    (k0 % 2 = 1 ∧ k1 % 2 = 1 ∧ k2 % 2 = 1) ∧
    (direct.farmhash.k0 = k0 ∧ direct.farmhash.k1 = k1 ∧ direct.farmhash.k2 = k2) ∧
    (∀ len, ((k2 + len * 2) % 2 ^ 64) % 2 = 1) ∧
    (∀ z, ((k1 + ((z &&& 0xff) <<< 1) % 2 ^ 64) % 2 ^ 64) % 2 = 1) ∧
    spec.bijective_on_u64 (fun x => (x * k0) % 2 ^ 64) ∧
    spec.bijective_on_u64 (fun x => (x * k1) % 2 ^ 64) ∧
    spec.bijective_on_u64 (fun x => (x * k2) % 2 ^ 64) ∧
    (∀ len, spec.bijective_on_u64 (fun x => (x * ((k2 + len * 2) % 2 ^ 64)) % 2 ^ 64)) ∧
    (∀ z, spec.bijective_on_u64
      (fun x => (x * ((k1 + ((z &&& 0xff) <<< 1) % 2 ^ 64) % 2 ^ 64)) % 2 ^ 64)) :=
  ⟨⟨by decide, by decide, by decide⟩, ⟨rfl, rfl, rfl⟩, short_mul_odd, final_mul_odd,
   mul_odd_bijective k0 (by decide), mul_odd_bijective k1 (by decide),
   mul_odd_bijective k2 (by decide), fun len => mul_odd_bijective _ (short_mul_odd len),
   fun z => mul_odd_bijective _ (final_mul_odd z)⟩

/-- The function `Hash64` on more than 64 bytes, with `end` and `last64` named. -/
theorem Hash64_pointers (s : Ptr) (len : Nat) (hlen : 64 < len) :
    direct.farmhash.Hash64 s len
      = direct.farmhash.Hash64.final s (direct.farmhash.Hash64.last64 len).toNat len
          (direct.farmhash.Hash64.loop s (direct.farmhash.Hash64.end_ len) len 0
            (direct.farmhash.Hash64.init s)).1 := by
  have h32 : ¬ len ≤ 32 := by omega
  have h64 : ¬ len ≤ 64 := by omega
  have e : (direct.farmhash.Hash64.last64 len).toNat
      = (len - 1) / 64 * 64 + ((len - 1) &&& 63) - 63 := by
    unfold direct.farmhash.Hash64.last64 direct.farmhash.Hash64.end_
    omega
  simp only [direct.farmhash.Hash64, h32, h64, if_false, e, direct.farmhash.Hash64.end_]

/-- C18. Assertion validity: for `len > 64` the assertion
`s + len - 64 == last64` of `Hash64` holds, and between 1 and 64 bytes are left
after `end`; `end` and `last64` are the pointers `Hash64` uses. -/
theorem C18_assertion_valid (s : Ptr) (len : Nat) (hlen : 64 < len) :
    direct.farmhash.Hash64.assertion len = true ∧
    (len : Int) - 64 = direct.farmhash.Hash64.last64 len ∧
    direct.farmhash.Hash64.end_ len ≤ len ∧
    1 ≤ len - direct.farmhash.Hash64.end_ len ∧
    len - direct.farmhash.Hash64.end_ len ≤ 64 ∧
    direct.farmhash.Hash64 s len
      = direct.farmhash.Hash64.final s (direct.farmhash.Hash64.last64 len).toNat len
          (direct.farmhash.Hash64.loop s (direct.farmhash.Hash64.end_ len) len 0
            (direct.farmhash.Hash64.init s)).1 := by
  have hl : (len : Int) - 64 = direct.farmhash.Hash64.last64 len := by
    unfold direct.farmhash.Hash64.last64 direct.farmhash.Hash64.end_
    rw [and_63]; omega
  refine ⟨decide_eq_true hl, hl, ?_, ?_, ?_, Hash64_pointers s len hlen⟩
  · unfold direct.farmhash.Hash64.end_; omega
  · unfold direct.farmhash.Hash64.end_; omega
  · unfold direct.farmhash.Hash64.end_; omega

/-- Witness of C18 at `len = 128`. -/
theorem C18_assertion_valid_witness :
    64 < 128 ∧ direct.farmhash.Hash64.assertion 128 = true ∧
    (128 : Int) - 64 = direct.farmhash.Hash64.last64 128 :=
  ⟨by decide, (C18_assertion_valid (Ptr.ofList []) 128 (by decide)).1,
   (C18_assertion_valid (Ptr.ofList []) 128 (by decide)).2.1⟩

end hashing

namespace hashing

open farmhash farmhash.state_type

/-- The traced loop is the loop: dropping the ghost results gives `Hash64.loop`. -/
theorem loop_traced_erase (s : Ptr) (end_ : Nat) :
    ∀ (fuel p : Nat) (l : direct.farmhash.Locals) (n : Nat) (fs : List Nat),
      ((direct.farmhash.Hash64.loop_traced s end_ fuel p l n fs).1,
        (direct.farmhash.Hash64.loop_traced s end_ fuel p l n fs).2.1)
        = direct.farmhash.Hash64.loop s end_ fuel p l := by
  intro fuel
  induction fuel with
  | zero => intro p l n fs; rfl
  | succ fuel ih =>
    intro p l n fs
    simp only [direct.farmhash.Hash64.loop_traced, direct.farmhash.Hash64.loop]
    by_cases he : p + 64 = end_
    · simp only [he, ne_eq, not_true_eq_false, if_false]
    · simp only [ne_eq, he, not_false_eq_true, if_true]
      exact ih _ _ _ _

theorem round_fetches_bound (p o : Nat) (ho : o ∈ direct.farmhash.Hash64.round_fetches p) :
    p ≤ o ∧ o + 8 ≤ p + 64 := by
  simp only [direct.farmhash.Hash64.round_fetches,
    direct.farmhash.WeakHashLen32WithSeeds.fetches, List.cons_append, List.nil_append,
    List.mem_cons, List.mem_singleton, List.not_mem_nil, or_false] at ho
  omega

/-- A pass of the loop body depends on the memory only through the words at
the offsets of `round_fetches`. -/
theorem body_depends (s t : Ptr) (p : Nat) (l : direct.farmhash.Locals)
    (h : ∀ o, o ∈ direct.farmhash.Hash64.round_fetches p →
      direct.farmhash.Fetch s o = direct.farmhash.Fetch t o) :
    direct.farmhash.Hash64.body s p l = direct.farmhash.Hash64.body t p l := by
  have hm : ∀ o, o ∈ [p + 8, p + 48, p + 40, p, p + 8, p + 16, p + 24, p + 32, p + 32 + 8,
      p + 32 + 16, p + 32 + 24, p + 16] →
      direct.farmhash.Fetch s o = direct.farmhash.Fetch t o := h
  have e0 := hm p (by simp)
  have e1 := hm (p + 8) (by simp)
  have e2 := hm (p + 16) (by simp)
  have e3 := hm (p + 24) (by simp)
  have e4 := hm (p + 32) (by simp)
  have e5 := hm (p + 32 + 8) (by simp)
  have e6 := hm (p + 32 + 16) (by simp)
  have e7 := hm (p + 32 + 24) (by simp)
  have e8 := hm (p + 40) (by simp)
  have e9 := hm (p + 48) (by simp)
  simp only [direct.farmhash.Hash64.body, direct.farmhash.WeakHashLen32WithSeeds, e0, e1, e2,
    e3, e4, e5, e6, e7, e8, e9]

/-- The last round depends on the memory only through the words at the
offsets of `round_fetches`. -/
theorem final_depends (s t : Ptr) (p len : Nat) (l : direct.farmhash.Locals)
    (h : ∀ o, o ∈ direct.farmhash.Hash64.round_fetches p →
      direct.farmhash.Fetch s o = direct.farmhash.Fetch t o) :
    direct.farmhash.Hash64.final s p len l = direct.farmhash.Hash64.final t p len l := by
  have hm : ∀ o, o ∈ [p + 8, p + 48, p + 40, p, p + 8, p + 16, p + 24, p + 32, p + 32 + 8,
      p + 32 + 16, p + 32 + 24, p + 16] →
      direct.farmhash.Fetch s o = direct.farmhash.Fetch t o := h
  have e0 := hm p (by simp)
  have e1 := hm (p + 8) (by simp)
  have e2 := hm (p + 16) (by simp)
  have e3 := hm (p + 24) (by simp)
  have e4 := hm (p + 32) (by simp)
  have e5 := hm (p + 32 + 8) (by simp)
  have e6 := hm (p + 32 + 16) (by simp)
  have e7 := hm (p + 32 + 24) (by simp)
  have e8 := hm (p + 40) (by simp)
  have e9 := hm (p + 48) (by simp)
  simp only [direct.farmhash.Hash64.final, direct.farmhash.WeakHashLen32WithSeeds, e0, e1, e2,
    e3, e4, e5, e6, e7, e8, e9]

/-- The traced loop from block `j` with enough fuel leaves through its test
at `end`, after `nb - j` more passes, and fetches only below `end`. -/
theorem loop_traced_spec (s : Ptr) (nb : Nat) :
    ∀ (fuel j : Nat) (l : direct.farmhash.Locals) (n : Nat) (fs : List Nat),
      j < nb → nb - j ≤ fuel → (∀ o, o ∈ fs → o + 8 ≤ nb * 64) →
      (direct.farmhash.Hash64.loop_traced s (nb * 64) fuel (64 * j) l n fs).2.1 = nb * 64 ∧
      (direct.farmhash.Hash64.loop_traced s (nb * 64) fuel (64 * j) l n fs).2.2.1
        = n + (nb - j) ∧
      (∀ o, o ∈ (direct.farmhash.Hash64.loop_traced s (nb * 64) fuel (64 * j) l n fs).2.2.2 →
        o + 8 ≤ nb * 64) := by
  intro fuel
  induction fuel with
  | zero => intro j l n fs hj hf; omega
  | succ fuel ih =>
    intro j l n fs hj hf hfs
    have hfs2 : ∀ o, o ∈ fs ++ direct.farmhash.Hash64.round_fetches (64 * j) →
        o + 8 ≤ nb * 64 := by
      intro o ho
      rcases List.mem_append.mp ho with h1 | h1
      · exact hfs o h1
      · have := round_fetches_bound _ _ h1
        omega
    simp only [direct.farmhash.Hash64.loop_traced]
    by_cases he : 64 * j + 64 = nb * 64
    · simp only [he, ne_eq, not_true_eq_false, if_false]
      exact ⟨trivial, by omega, hfs2⟩
    · simp only [ne_eq, he, not_false_eq_true, if_true]
      have := ih (j + 1) (direct.farmhash.Hash64.body s (64 * j) l) (n + 1)
        (fs ++ direct.farmhash.Hash64.round_fetches (64 * j)) (by omega) (by omega) hfs2
      have e : 64 * (j + 1) = 64 * j + 64 := by omega
      rw [e] at this
      refine ⟨this.1, ?_, this.2.2⟩
      rw [this.2.1]; omega

theorem Fetch_congr_lt (s t : Ptr) (len o : Nat) (h : ∀ i, i < len → s i = t i)
    (ho : o + 8 ≤ len) : direct.farmhash.Fetch s o = direct.farmhash.Fetch t o :=
  Fetch64_congr s t o o (fun i hi => h _ (by omega))

/-- On more than 64 bytes `Hash64` depends only on the bytes below `len`. -/
theorem Hash64_long_congr (s t : Ptr) (len : Nat) (hlen : 64 < len)
    (h : ∀ i, i < len → s i = t i) :
    direct.farmhash.Hash64 s len = direct.farmhash.Hash64 t len := by
  have hnb : 64 * nblocks len < len := by unfold nblocks; omega
  rw [Hash64_long s len hlen, Hash64_long t len hlen,
    after_congr s t (nblocks len) (fun i hi => h i (by omega)) (fun i hi => h i (by omega))]
  apply final_depends
  intro o ho
  have := round_fetches_bound _ _ ho
  exact Fetch_congr_lt s t len o h (by omega)

/-- C19. Termination of the loop of `Hash64`: for `len > 64` the loop, given
`len` passes at most, leaves through its test `s != end` after exactly
`(len - 1) / 64 ≥ 1` passes; every word fetched in the loop and in the last
round lies inside `[0, len)`; and `Hash64` depends on no byte outside. -/
theorem C19_reference_loop_terminates (s : Ptr) (len : Nat) (hlen : 64 < len) :
    ((direct.farmhash.Hash64.loop_traced s (direct.farmhash.Hash64.end_ len) len 0
        (direct.farmhash.Hash64.init s) 0 []).1,
      (direct.farmhash.Hash64.loop_traced s (direct.farmhash.Hash64.end_ len) len 0
        (direct.farmhash.Hash64.init s) 0 []).2.1)
      = direct.farmhash.Hash64.loop s (direct.farmhash.Hash64.end_ len) len 0
          (direct.farmhash.Hash64.init s) ∧
    (direct.farmhash.Hash64.loop_traced s (direct.farmhash.Hash64.end_ len) len 0
        (direct.farmhash.Hash64.init s) 0 []).2.1 = direct.farmhash.Hash64.end_ len ∧
    (direct.farmhash.Hash64.loop_traced s (direct.farmhash.Hash64.end_ len) len 0
        (direct.farmhash.Hash64.init s) 0 []).2.2.1 = (len - 1) / 64 ∧
    1 ≤ (len - 1) / 64 ∧
    (∀ o, o ∈ (direct.farmhash.Hash64.loop_traced s (direct.farmhash.Hash64.end_ len) len 0
        (direct.farmhash.Hash64.init s) 0 []).2.2.2 → o + 8 ≤ len) ∧
    (∀ o, o ∈ direct.farmhash.Hash64.round_fetches
        (direct.farmhash.Hash64.last64 len).toNat →
      0 ≤ direct.farmhash.Hash64.last64 len ∧ o + 8 ≤ len) ∧
    (∀ t : Ptr, (∀ i, i < len → s i = t i) →
      direct.farmhash.Hash64 s len = direct.farmhash.Hash64 t len) := by
  have hspec := loop_traced_spec s ((len - 1) / 64) len 0 (direct.farmhash.Hash64.init s) 0 []
    (by omega) (by omega) (by intro o ho; simp at ho)
  simp only [Nat.mul_zero] at hspec
  have hlast : (direct.farmhash.Hash64.last64 len).toNat = len - 64 ∧
      0 ≤ direct.farmhash.Hash64.last64 len := by
    unfold direct.farmhash.Hash64.last64 direct.farmhash.Hash64.end_
    rw [and_63]; omega
  refine ⟨loop_traced_erase _ _ _ _ _ _ _, hspec.1, ?_, by omega, ?_, ?_,
    fun t ht => Hash64_long_congr s t len hlen ht⟩
  · show (direct.farmhash.Hash64.loop_traced s ((len - 1) / 64 * 64) len 0
      (direct.farmhash.Hash64.init s) 0 []).2.2.1 = _
    rw [hspec.2.1]; omega
  · intro o ho
    have := hspec.2.2 o ho
    omega
  · intro o ho
    rw [hlast.1] at ho
    have := round_fetches_bound _ _ ho
    exact ⟨hlast.2, by omega⟩

set_option maxRecDepth 100000 in
/-- Witness of C19 at `len = 200`: three passes. -/
theorem C19_reference_loop_terminates_witness :
    64 < 200 ∧
    (direct.farmhash.Hash64.loop_traced (Ptr.ofList (List.range 200))
        (direct.farmhash.Hash64.end_ 200) 200 0
        (direct.farmhash.Hash64.init (Ptr.ofList (List.range 200))) 0 []).2.2.1 = 3 :=
  ⟨by decide,
   (C19_reference_loop_terminates (Ptr.ofList (List.range 200)) 200 (by decide)).2.2.1⟩

end hashing

namespace hashing

open farmhash farmhash.state_type

theorem agree_Fetch64 (reads : List Read) (p q : Ptr) (h : agree_on reads p q)
    (off back : Nat) (hm : (⟨off, back, 8⟩ : Read) ∈ reads) :
    Fetch64 p (off - back) = Fetch64 q (off - back) :=
  Fetch64_congr p q _ _ (fun i hi => h _ hm i hi)

theorem agree_Fetch32 (reads : List Read) (p q : Ptr) (h : agree_on reads p q)
    (off back : Nat) (hm : (⟨off, back, 4⟩ : Read) ∈ reads) :
    Fetch32 p (off - back) = Fetch32 q (off - back) :=
  Fetch32_congr p q _ _ (fun i hi => h _ hm i hi)

theorem agree_byte (reads : List Read) (p q : Ptr) (h : agree_on reads p q)
    (off back : Nat) (hm : (⟨off, back, 1⟩ : Read) ∈ reads) :
    p (off - back) = q (off - back) :=
  h _ hm 0 Nat.one_pos

theorem HashLen0to16_reads_in_bounds (len : Nat) (hlen : len ≤ 16) (r : Read)
    (hr : r ∈ HashLen0to16.reads len) : r.in_bounds len := by
  unfold HashLen0to16.reads at hr
  unfold Read.in_bounds
  by_cases h8 : len ≥ 8
  · simp only [h8, if_true, List.mem_cons, List.mem_singleton, List.not_mem_nil, or_false] at hr
    rcases hr with rfl | rfl <;> dsimp only <;> omega
  · by_cases h4 : len ≥ 4
    · simp only [h8, h4, if_true, if_false, List.mem_cons, List.mem_singleton,
        List.not_mem_nil, or_false] at hr
      rcases hr with rfl | rfl <;> dsimp only <;> omega
    · by_cases h0 : len > 0
      · simp only [h8, h4, h0, if_true, if_false, List.mem_cons, List.mem_singleton,
          List.not_mem_nil, or_false] at hr
        have hs : len >>> 1 < len := by rw [Nat.shiftRight_eq_div_pow]; omega
        rcases hr with rfl | rfl | rfl <;> dsimp only <;> omega
      · simp only [h8, h4, h0, if_false, List.not_mem_nil] at hr

theorem HashLen17to32_reads_in_bounds (len : Nat) (h17 : 17 ≤ len) (r : Read)
    (hr : r ∈ HashLen17to32.reads len) : r.in_bounds len := by
  unfold HashLen17to32.reads at hr
  unfold Read.in_bounds
  simp only [List.mem_cons, List.mem_singleton, List.not_mem_nil, or_false] at hr
  rcases hr with rfl | rfl | rfl | rfl <;> dsimp only <;> omega

theorem HashLen33to64_reads_in_bounds (len : Nat) (h33 : 33 ≤ len) (r : Read)
    (hr : r ∈ HashLen33to64.reads len) : r.in_bounds len := by
  unfold HashLen33to64.reads at hr
  unfold Read.in_bounds
  simp only [List.mem_cons, List.mem_singleton, List.not_mem_nil, or_false] at hr
  rcases hr with rfl | rfl | rfl | rfl | rfl | rfl | rfl | rfl <;> dsimp only <;> omega

/-- The value of `HashLen0to16` depends on the memory only through its reads. -/
theorem HashLen0to16_depends (p q : Ptr) (len : Nat)
    (h : agree_on (HashLen0to16.reads len) p q) :
    HashLen0to16 p len = HashLen0to16 q len := by
  unfold HashLen0to16.reads at h
  unfold HashLen0to16
  by_cases h8 : len ≥ 8
  · simp only [h8, if_true] at h
    have e1 := agree_Fetch64 _ p q h 0 0 (by simp)
    have e2 := agree_Fetch64 _ p q h len 8 (by simp)
    simp only [Nat.sub_zero] at e1
    simp only [h8, if_true, e1, e2]
  · by_cases h4 : len ≥ 4
    · simp only [h8, h4, if_true, if_false] at h
      have e1 := agree_Fetch32 _ p q h 0 0 (by simp)
      have e2 := agree_Fetch32 _ p q h len 4 (by simp)
      simp only [Nat.sub_zero] at e1
      simp only [h8, h4, if_true, if_false, e1, e2]
    · by_cases h0 : len > 0
      · simp only [h8, h4, h0, if_true, if_false] at h
        have e1 := agree_byte _ p q h 0 0 (by simp)
        have e2 := agree_byte _ p q h (len >>> 1) 0 (by simp)
        have e3 := agree_byte _ p q h len 1 (by simp)
        simp only [Nat.sub_zero] at e1 e2
        simp only [h8, h4, h0, if_true, if_false, e1, e2, e3]
      · simp only [h8, h4, h0, if_false]

/-- The value of `HashLen17to32` depends on the memory only through its reads. -/
theorem HashLen17to32_depends (p q : Ptr) (len : Nat)
    (h : agree_on (HashLen17to32.reads len) p q) :
    HashLen17to32 p len = HashLen17to32 q len := by
  unfold HashLen17to32.reads at h
  have e1 := agree_Fetch64 _ p q h 0 0 (by simp)
  have e2 := agree_Fetch64 _ p q h 8 0 (by simp)
  have e3 := agree_Fetch64 _ p q h len 8 (by simp)
  have e4 := agree_Fetch64 _ p q h len 16 (by simp)
  simp only [Nat.sub_zero] at e1 e2
  simp only [HashLen17to32, e1, e2, e3, e4]

/-- The value of `HashLen33to64` depends on the memory only through its reads. -/
theorem HashLen33to64_depends (p q : Ptr) (len : Nat)
    (h : agree_on (HashLen33to64.reads len) p q) :
    HashLen33to64 p len = HashLen33to64 q len := by
  unfold HashLen33to64.reads at h
  have e1 := agree_Fetch64 _ p q h 0 0 (by simp)
  have e2 := agree_Fetch64 _ p q h 8 0 (by simp)
  have e3 := agree_Fetch64 _ p q h len 8 (by simp)
  have e4 := agree_Fetch64 _ p q h len 16 (by simp)
  have e5 := agree_Fetch64 _ p q h 16 0 (by simp)
  have e6 := agree_Fetch64 _ p q h 24 0 (by simp)
  have e7 := agree_Fetch64 _ p q h len 32 (by simp)
  have e8 := agree_Fetch64 _ p q h len 24 (by simp)
  simp only [Nat.sub_zero] at e1 e2 e5 e6
  simp only [HashLen33to64, e1, e2, e3, e4, e5, e6, e7, e8]

theorem operator_reads_in_bounds (len : Nat) (h64 : len ≤ 64) (r : Read)
    (hr : r ∈ operator_result_type.reads len) : r.in_bounds len := by
  unfold operator_result_type.reads at hr
  by_cases h32 : len ≤ 32
  · by_cases h16 : len ≤ 16
    · simp only [h32, h16, if_true] at hr
      exact HashLen0to16_reads_in_bounds len h16 r hr
    · simp only [h32, h16, if_true, if_false] at hr
      exact HashLen17to32_reads_in_bounds len (by omega) r hr
  · simp only [h32, if_false] at hr
    exact HashLen33to64_reads_in_bounds len (by omega) r hr

/-- The conversion of an unmixed hasher depends on the buffer only through
the reads of `operator_result_type.reads` at the cursor. -/
theorem operator_result_type_depends (h h2 : farmhash) (hm : h.mixed_ = false)
    (hm2 : h2.mixed_ = false) (hc : h2.buffer_next_ = h.buffer_next_)
    (ha : agree_on (operator_result_type.reads h.buffer_next_) h.state_.buffer_
      h2.state_.buffer_) :
    (operator_result_type h).1 = (operator_result_type h2).1 := by
  unfold operator_result_type.reads at ha
  simp only [operator_result_type, hm, hm2, hc, Bool.not_false, if_true]
  by_cases h32 : h.buffer_next_ ≤ 32
  · by_cases h16 : h.buffer_next_ ≤ 16
    · simp only [h32, h16, if_true] at ha ⊢
      exact HashLen0to16_depends _ _ _ ha
    · simp only [h32, h16, if_true, if_false] at ha ⊢
      exact HashLen17to32_depends _ _ _ ha
  · simp only [h32, if_false] at ha ⊢
    exact HashLen33to64_depends _ _ _ ha

/-- C20. Short-formula reads stay in bounds: every read of `HashLen0to16` for
`len ≤ 16`, of `HashLen17to32` for `17 ≤ len ≤ 32` and of `HashLen33to64` for
`33 ≤ len ≤ 64` lies inside `[0, len)`, and each formula depends on the memory
through these reads only; so the conversion of an unmixed hasher reads the
buffer below the cursor only, and its value does not depend on the bytes at
or after the cursor. -/
theorem C20_short_reads_in_bounds :
    (∀ len r, len ≤ 16 → r ∈ HashLen0to16.reads len → r.in_bounds len) ∧
    (∀ len r, 17 ≤ len → len ≤ 32 → r ∈ HashLen17to32.reads len → r.in_bounds len) ∧
    (∀ len r, 33 ≤ len → len ≤ 64 → r ∈ HashLen33to64.reads len → r.in_bounds len) ∧
    (∀ p q len, agree_on (HashLen0to16.reads len) p q →
      HashLen0to16 p len = HashLen0to16 q len) ∧
    (∀ p q len, agree_on (HashLen17to32.reads len) p q →
      HashLen17to32 p len = HashLen17to32 q len) ∧
    (∀ p q len, agree_on (HashLen33to64.reads len) p q →
      HashLen33to64 p len = HashLen33to64 q len) ∧
    (∀ (s : state_type) (chunks : List (List Nat)) (r : Read),
      chunks.flatten.length ≤ 64 →
      r ∈ operator_result_type.reads (feed s chunks).buffer_next_ →
      r.in_bounds (feed s chunks).buffer_next_ ∧
      (feed s chunks).buffer_next_ = chunks.flatten.length) ∧
    (∀ h h2 : farmhash, h.mixed_ = false → h2.mixed_ = false →
      h.buffer_next_ ≤ 64 → h2.buffer_next_ = h.buffer_next_ →
      (∀ i, i < h.buffer_next_ → h.state_.buffer_ i = h2.state_.buffer_ i) →
      (operator_result_type h).1 = (operator_result_type h2).1) := by
  refine ⟨fun len r h1 hr => HashLen0to16_reads_in_bounds len h1 r hr,
    fun len r h1 _ hr => HashLen17to32_reads_in_bounds len h1 r hr,
    fun len r h1 _ hr => HashLen33to64_reads_in_bounds len h1 r hr,
    HashLen0to16_depends, HashLen17to32_depends, HashLen33to64_depends, ?_, ?_⟩
  · intro s chunks r hlen hr
    have hcur := ((Inv_feed s chunks).buffer_short hlen).2.1
    exact ⟨operator_reads_in_bounds _ (by omega) r hr, hcur⟩
  · intro h h2 hm hm2 h64 hc hbuf
    apply operator_result_type_depends h h2 hm hm2 hc
    intro r hr i hi
    have hb := operator_reads_in_bounds _ h64 r hr
    unfold Read.in_bounds at hb
    exact hbuf _ (by omega)

set_option maxRecDepth 100000 in
/-- Witness of C20: the reads of the conversion of the hasher of the test
(8 bytes) are the two words at offsets 0 and `8 - 8`, inside the 8 bytes. -/
theorem C20_short_reads_in_bounds_witness :
    operator_result_type.reads test_code1.buffer_next_ = [⟨0, 0, 8⟩, ⟨8, 8, 8⟩] ∧
    (⟨8, 8, 8⟩ : Read).in_bounds 8 :=
  ⟨by decide, C20_short_reads_in_bounds.1 8 ⟨8, 8, 8⟩ (by decide) (by decide)⟩

end hashing

/-! ## Claims C21 to C24 -/

namespace hashing

open farmhash farmhash.state_type

/-- The method `final_mix` depends on the state only through the rolling
state and the 64 bytes of the buffer, in its value and in the rolling state
and the buffer it leaves. -/
theorem final_mix_congr (st1 st2 : state_type) (len : Nat) (hlen : len ≤ 64)
    (hr : st1.rolling = st2.rolling) (hb : ∀ i, i < 64 → st1.buffer_ i = st2.buffer_ i) :
    (final_mix st1 len).1 = (final_mix st2 len).1 ∧
    (final_mix st1 len).2.rolling = (final_mix st2 len).2.rolling ∧
    (∀ i, i < 64 → (final_mix st1 len).2.buffer_ i = (final_mix st2 len).2.buffer_ i) := by
  have hrot : ∀ i, i < 64 → std_rotate st1.buffer_ len 64 i = std_rotate st2.buffer_ len 64 i := by
    intro i hi
    unfold std_rotate
    simp only [hi, if_true]
    by_cases h2 : i + len < 64
    · simp only [h2, if_true]; exact hb _ h2
    · simp only [h2, if_false]; exact hb _ (by omega)
  have w1 : ∀ j, j < 8 → Fetch64 (std_rotate st1.buffer_ len 64) (8 * j)
      = Fetch64 (std_rotate st2.buffer_ len 64) (8 * j) := fun j hj =>
    Fetch64_congr _ _ _ _ (fun i hi => hrot _ (by omega))
  have e0 := w1 0 (by omega)
  have e1 := w1 1 (by omega)
  have e2 := w1 2 (by omega)
  have e3 := w1 3 (by omega)
  have e4 := w1 4 (by omega)
  have e5 := w1 5 (by omega)
  have e6 := w1 6 (by omega)
  have e7 := w1 7 (by omega)
  have hx : st1.x_ = st2.x_ := congrArg direct.farmhash.Locals.x hr
  have hy : st1.y_ = st2.y_ := congrArg direct.farmhash.Locals.y hr
  have hz : st1.z_ = st2.z_ := congrArg direct.farmhash.Locals.z hr
  have hv : st1.v_ = st2.v_ := congrArg direct.farmhash.Locals.v hr
  have hw : st1.w_ = st2.w_ := congrArg direct.farmhash.Locals.w hr
  simp only [Nat.mul_zero, Nat.reduceMul] at e0 e1 e2 e3 e4 e5 e6 e7
  refine ⟨?_, ?_, hrot⟩
  · simp only [final_mix, WeakHashLen32WithSeeds, Nat.mul_zero, Nat.reduceMul, Nat.reduceAdd,
      Nat.zero_add, e0, e1, e2, e3, e4, e5, e6, e7, hx, hy, hz, hv, hw]
  · simp only [final_mix, rolling, WeakHashLen32WithSeeds, Nat.mul_zero, Nat.reduceMul,
      Nat.reduceAdd, Nat.zero_add, e0, e1, e2, e3, e4, e5, e6, e7, hx, hy, hz, hv, hw]

/-- Two hashers to which the same more than 64 bytes have been appended
return the same value at the first conversion and at the second. -/
theorem double_conversion_congr (s1 s2 : state_type) (chunks : List (List Nat))
    (hlen : 64 < chunks.flatten.length) :
    (operator_result_type (feed s1 chunks)).1 = (operator_result_type (feed s2 chunks)).1 ∧
    (operator_result_type (operator_result_type (feed s1 chunks)).2).1
      = (operator_result_type (operator_result_type (feed s2 chunks)).2).1 := by
  have i1 := Inv_feed s1 chunks
  have i2 := Inv_feed s2 chunks
  have hm1 : (feed s1 chunks).mixed_ = true := by rw [i1.mixed, decide_eq_true hlen]
  have hm2 : (feed s2 chunks).mixed_ = true := by rw [i2.mixed, decide_eq_true hlen]
  have hc : (feed s1 chunks).buffer_next_ = (feed s2 chunks).buffer_next_ := by
    rw [i1.cursor, i2.cursor]
  have hr : (feed s1 chunks).state_.rolling = (feed s2 chunks).state_.rolling := by
    rw [(i1.long hlen).1, (i2.long hlen).1]
  have hb : ∀ i, i < 64 → (feed s1 chunks).state_.buffer_ i = (feed s2 chunks).state_.buffer_ i := by
    intro i hi
    by_cases h : i < (feed s1 chunks).buffer_next_
    · rw [i1.buf_lo i h, i2.buf_lo i (by rw [← hc]; exact h)]
    · rw [i1.buf_hi hlen i (by omega) hi, i2.buf_hi hlen i (by rw [← hc]; omega) hi]
  have h64 := i1.cursor_le
  have f1 := final_mix_congr _ _ (feed s1 chunks).buffer_next_ h64 hr hb
  have f2 := final_mix_congr _ _ (feed s1 chunks).buffer_next_ h64 f1.2.1 f1.2.2
  simp only [operator_result_type, hm1, hm2, Bool.not_true, Bool.false_eq_true, if_false,
    ← hc]
  exact ⟨f1.1, f2.1⟩

set_option maxRecDepth 100000 in
/-- The two values on the state `garbage`. -/
theorem zeros65_values :
    (operator_result_type (zeros65 garbage)).1 = 2325558011289879679 ∧
    (operator_result_type (operator_result_type (zeros65 garbage)).2).1
      = 7847042959944650605 := by
  decide

set_option maxRecDepth 100000 in
/-- C21. The conversion of a long-input hasher is destructive: when `mixed_` is
true the conversion leaves the state that `final_mix` leaves, with the buffer
rotated in place and `final_mix` recorded; and on 65 zero bytes, whatever the
state held before, the first conversion returns 2325558011289879679, the
second 7847042959944650605, and on the state `garbage` each of `x_`, `y_`,
`z_`, `v_`, `w_` has been overwritten with a new value. -/
theorem C21_long_conversion_destructive :
    (∀ h : farmhash, h.mixed_ = true →
      (operator_result_type h).2.state_ = (final_mix h.state_ h.buffer_next_).2 ∧
      (operator_result_type h).2.state_.buffer_
        = std_rotate h.state_.buffer_ h.buffer_next_ 64 ∧
      (operator_result_type h).2.state_.trace_ = h.state_.trace_ ++ [Call.final_mix_]) ∧
    64 < [List.replicate 65 0].flatten.length ∧
    (∀ s : state_type,
      (operator_result_type (zeros65 s)).1 = 2325558011289879679 ∧
      (operator_result_type (operator_result_type (zeros65 s)).2).1 = 7847042959944650605 ∧
      (operator_result_type (zeros65 s)).1
        ≠ (operator_result_type (operator_result_type (zeros65 s)).2).1) ∧
    (operator_result_type (zeros65 garbage)).2.state_.x_ ≠ (zeros65 garbage).state_.x_ ∧
    (operator_result_type (zeros65 garbage)).2.state_.y_ ≠ (zeros65 garbage).state_.y_ ∧
    (operator_result_type (zeros65 garbage)).2.state_.z_ ≠ (zeros65 garbage).state_.z_ ∧
    (operator_result_type (zeros65 garbage)).2.state_.v_ ≠ (zeros65 garbage).state_.v_ ∧
    (operator_result_type (zeros65 garbage)).2.state_.w_ ≠ (zeros65 garbage).state_.w_ := by
  refine ⟨?_, by decide, ?_, by decide, by decide, by decide, by decide, by decide⟩
  · intro h hm
    simp only [operator_result_type, hm, Bool.not_true, Bool.false_eq_true, if_false]
    exact ⟨trivial, rfl, rfl⟩
  · intro s
    have hc := double_conversion_congr s garbage [List.replicate 65 0] (by decide)
    have hv := zeros65_values
    unfold zeros65 at hv ⊢
    rw [hc.1, hc.2, hv.1, hv.2]
    exact ⟨rfl, rfl, by decide⟩

end hashing

namespace hashing

set_option maxRecDepth 100000 in
/-- Witness of C21: the hasher fed 65 zero bytes has mixed, and its conversion
records one call of `final_mix`. -/
theorem C21_long_conversion_destructive_witness :
    (farmhash.zeros65 farmhash.garbage).mixed_ = true ∧
    (farmhash.operator_result_type (farmhash.zeros65 farmhash.garbage)).2.state_.trace_
      = (farmhash.zeros65 farmhash.garbage).state_.trace_ ++ [Call.final_mix_] :=
  ⟨by decide,
   (C21_long_conversion_destructive.1 (farmhash.zeros65 farmhash.garbage) (by decide)).2.2⟩

/-- The state after `hash_combine_range` is the fold of the FNV-1a step over
the bytes. -/
theorem fnv1a_state (bytes : List Nat) : ∀ h : fnv1a,
    (fnv1a.hash_combine_range h bytes).state_
      = bytes.foldl (fun state byte => ((state ^^^ byte) * 1099511628211) % 2 ^ 64)
          h.state_ := by
  induction bytes with
  | nil => intro h; rfl
  | cons c rest ih =>
    intro h
    simp only [fnv1a.hash_combine_range, List.foldl_cons]
    rw [ih]
    rfl

theorem fnv1a_append (A B : List Nat) : ∀ h : fnv1a,
    fnv1a.hash_combine_range h (A ++ B)
      = fnv1a.hash_combine_range (fnv1a.hash_combine_range h A) B := by
  induction A with
  | nil => intro h; rfl
  | cons c rest ih =>
    intro h
    simp only [List.cons_append, fnv1a.hash_combine_range]
    exact ih _

theorem fnv1a_foldl (chunks : List (List Nat)) : ∀ h : fnv1a,
    chunks.foldl fnv1a.hash_combine_range h = fnv1a.hash_combine_range h chunks.flatten := by
  induction chunks with
  | nil => intro h; rfl
  | cons C cs ih =>
    intro h
    simp only [List.foldl_cons, List.flatten_cons]
    rw [ih, fnv1a_append]

set_option maxRecDepth 100000 in
/-- C22. The class `fnv1a` is 64-bit FNV-1a and is chunk independent: a fresh
`fnv1a` fed any list of chunks and converted returns the FNV-1a-64 hash of
their concatenation (the fold from the offset basis
14695981039346656037 = 0xcbf29ce484222325), the same as when fed in one call;
an empty range leaves the state unchanged; the fold gives the published
FNV-1a-64 values of the empty string, of "a" and of "foobar". -/
theorem C22_fnv1a_is_fnv1a_64 (chunks : List (List Nat)) (h : fnv1a) :
    fnv1a.operator_result_type (fnv1a.feed chunks) = spec.fnv1a_64 chunks.flatten ∧
    fnv1a.operator_result_type (fnv1a.hash_combine_range fnv1a.ctor chunks.flatten)
      = spec.fnv1a_64 chunks.flatten ∧
    fnv1a.hash_combine_range h [] = h ∧
    fnv1a.ctor.state_ = 0xcbf29ce484222325 ∧
    spec.fnv1a_64 [] = 0xcbf29ce484222325 ∧
    spec.fnv1a_64 [97] = 0xaf63dc4c8601ec8c ∧
    spec.fnv1a_64 [102, 111, 111, 98, 97, 114] = 0x85944171f73967e8 := by
  refine ⟨?_, ?_, rfl, rfl, rfl, by decide, by decide⟩
  · unfold fnv1a.feed fnv1a.operator_result_type
    rw [fnv1a_foldl, fnv1a_state]
    rfl
  · unfold fnv1a.operator_result_type
    rw [fnv1a_state]
    rfl

/-- A step of FNV-1a is injective in the state (a 64-bit word) for a fixed
byte. -/
theorem fnv1a_mix_injective_state (h1 h2 : fnv1a) (c : Nat) (hs1 : h1.state_ < 2 ^ 64)
    (hs2 : h2.state_ < 2 ^ 64) (hc : c < 256) (he : fnv1a.mix h1 c = fnv1a.mix h2 c) :
    h1.state_ = h2.state_ := by
  have hc64 : c < 2 ^ 64 := by omega
  have hinj := (mul_odd_bijective 1099511628211 (by decide)).2.1
  have hx := hinj (h1.state_ ^^^ c) (h2.state_ ^^^ c) (Nat.xor_lt_two_pow hs1 hc64)
    (Nat.xor_lt_two_pow hs2 hc64) he
  have := congrArg (fun x => x ^^^ c) hx
  simpa [Nat.xor_assoc] using this

/-- A step of FNV-1a is injective in the byte for a fixed state. -/
theorem fnv1a_mix_injective_byte (h : fnv1a) (c1 c2 : Nat) (hs : h.state_ < 2 ^ 64)
    (hc1 : c1 < 256) (hc2 : c2 < 256) (he : fnv1a.mix h c1 = fnv1a.mix h c2) : c1 = c2 := by
  have h1 : c1 < 2 ^ 64 := by omega
  have h2 : c2 < 2 ^ 64 := by omega
  have hinj := (mul_odd_bijective 1099511628211 (by decide)).2.1
  have hx := hinj (h.state_ ^^^ c1) (h.state_ ^^^ c2) (Nat.xor_lt_two_pow hs h1)
    (Nat.xor_lt_two_pow hs h2) he
  exact Nat.xor_right_injective hx

theorem fnv1a_mix_lt (h : fnv1a) (c : Nat) : fnv1a.mix h c < 2 ^ 64 :=
  Nat.mod_lt _ (by norm_num)

/-- Appending the same bytes to two different 64-bit states gives two
different states. -/
theorem fnv1a_injective_state (Q : List Nat) (hQ : ∀ x, x ∈ Q → x < 256) :
    ∀ h1 h2 : fnv1a, h1.state_ < 2 ^ 64 → h2.state_ < 2 ^ 64 → h1.state_ ≠ h2.state_ →
      (fnv1a.hash_combine_range h1 Q).state_ ≠ (fnv1a.hash_combine_range h2 Q).state_ := by
  induction Q with
  | nil => intro h1 h2 _ _ hne; exact hne
  | cons c rest ih =>
    intro h1 h2 hs1 hs2 hne
    simp only [fnv1a.hash_combine_range]
    apply ih (fun x hx => hQ x (List.mem_cons_of_mem _ hx))
    · exact fnv1a_mix_lt h1 c
    · exact fnv1a_mix_lt h2 c
    · intro he
      exact hne (fnv1a_mix_injective_state h1 h2 c hs1 hs2 (hQ c (List.mem_cons_self _ _)) he)

/-- Two byte sequences that differ at exactly one position, from the same
64-bit state, give two different states. -/
theorem fnv1a_sensitive : ∀ (A B : List Nat) (i : Nat) (h : fnv1a),
    h.state_ < 2 ^ 64 → (∀ x, x ∈ A → x < 256) → (∀ x, x ∈ B → x < 256) →
    spec.differ_exactly_at A B i →
    (fnv1a.hash_combine_range h A).state_ ≠ (fnv1a.hash_combine_range h B).state_ := by
  intro A
  induction A with
  | nil =>
    intro B i h _ _ _ hd
    exact absurd hd.2.1 (by simp)
  | cons a A ih =>
    intro B i h hs hA hB hd
    obtain ⟨hlen, hi, hne, hsame⟩ := hd
    cases B with
    | nil => simp at hlen
    | cons b B =>
      simp only [List.length_cons, Nat.add_right_cancel_iff] at hlen
      simp only [fnv1a.hash_combine_range]
      cases i with
      | zero =>
        simp only [List.getD_cons_zero] at hne
        have hAB : A = B := by
          apply List.ext_getElem hlen
          intro j h1 h2
          have := hsame (j + 1) (by omega)
          simp only [List.getD_cons_succ] at this
          rw [List.getD_eq_getElem _ _ h1, List.getD_eq_getElem _ _ h2] at this
          exact this
        subst hAB
        apply fnv1a_injective_state A (fun x hx => hA x (List.mem_cons_of_mem _ hx))
        · exact fnv1a_mix_lt h a
        · exact fnv1a_mix_lt h b
        · intro he
          exact hne (fnv1a_mix_injective_byte h a b hs (hA a (List.mem_cons_self _ _))
            (hB b (List.mem_cons_self _ _)) he)
      | succ i =>
        have hab : a = b := by
          have := hsame 0 (by omega)
          simpa using this
        subst hab
        apply ih B i _ (fnv1a_mix_lt h a) (fun x hx => hA x (List.mem_cons_of_mem _ hx))
          (fun x hx => hB x (List.mem_cons_of_mem _ hx))
        refine ⟨hlen, ?_, ?_, ?_⟩
        · simp only [List.length_cons] at hi; omega
        · simpa using hne
        · intro j hj
          have := hsame (j + 1) (by omega)
          simpa using this

/-- C23. Single-byte sensitivity of `fnv1a`: from every 64-bit starting state,
two byte sequences of the same length that differ at exactly one position
give two different states under the byte-pointer `hash_combine_range`; each
step is injective in the state for a fixed byte and in the byte for a fixed
state. -/
theorem C23_fnv1a_single_byte_sensitivity (h : fnv1a) (A B : List Nat) (i : Nat)
    (hs : h.state_ < 2 ^ 64) (hA : ∀ x, x ∈ A → x < 256) (hB : ∀ x, x ∈ B → x < 256)
    (hd : spec.differ_exactly_at A B i) :
    (fnv1a.hash_combine_range h A).state_ ≠ (fnv1a.hash_combine_range h B).state_ ∧
    (∀ (h1 h2 : fnv1a) (c : Nat), h1.state_ < 2 ^ 64 → h2.state_ < 2 ^ 64 → c < 256 →
      fnv1a.mix h1 c = fnv1a.mix h2 c → h1.state_ = h2.state_) ∧
    (∀ (h0 : fnv1a) (c1 c2 : Nat), h0.state_ < 2 ^ 64 → c1 < 256 → c2 < 256 →
      fnv1a.mix h0 c1 = fnv1a.mix h0 c2 → c1 = c2) :=
  ⟨fnv1a_sensitive A B i h hs hA hB hd, fnv1a_mix_injective_state, fnv1a_mix_injective_byte⟩

set_option maxRecDepth 100000 in
/-- Witness of C23: "foobar" and "foobaz" from the fresh state. -/
theorem C23_fnv1a_single_byte_sensitivity_witness :
    spec.differ_exactly_at [102, 111, 111, 98, 97, 114] [102, 111, 111, 98, 97, 122] 5 ∧
    (fnv1a.hash_combine_range fnv1a.ctor [102, 111, 111, 98, 97, 114]).state_
      ≠ (fnv1a.hash_combine_range fnv1a.ctor [102, 111, 111, 98, 97, 122]).state_ :=
  have hd : spec.differ_exactly_at [102, 111, 111, 98, 97, 114]
      [102, 111, 111, 98, 97, 122] 5 := by
    refine ⟨rfl, by decide, by decide, ?_⟩
    intro j hj
    match j, hj with
    | 0, _ => rfl
    | 1, _ => rfl
    | 2, _ => rfl
    | 3, _ => rfl
    | 4, _ => rfl
    | 5, hj => exact absurd rfl hj
    | j + 6, _ => rfl
  ⟨hd, (C23_fnv1a_single_byte_sensitivity fnv1a.ctor _ _ 5 (by decide) (by decide)
    (by decide) hd).1⟩

end hashing

namespace hashing

open farmhash.state_type

theorem testBit_u64_high (val j : Nat) (hval : val < 2 ^ 64) (hj : 64 ≤ j) :
    val.testBit j = false :=
  Nat.testBit_lt_two_pow (Nat.lt_of_lt_of_le hval (Nat.pow_le_pow_right (by decide) hj))

theorem Rotate_lt (val shift : Nat) (hval : val < 2 ^ 64) : Rotate val shift < 2 ^ 64 := by
  unfold Rotate
  by_cases h0 : shift = 0
  · simp only [h0, if_true]; exact hval
  · simp only [h0, if_false]
    apply Nat.or_lt_two_pow
    · rw [Nat.shiftRight_eq_div_pow]
      exact Nat.lt_of_le_of_lt (Nat.div_le_self _ _) hval
    · exact Nat.mod_lt _ (by norm_num)

/-- Bit `i` of `Rotate(val, shift)` is bit `(i + shift) mod 64` of `val`. -/
theorem Rotate_testBit (val shift i : Nat) (hval : val < 2 ^ 64) (hshift : shift < 64)
    (hi : i < 64) : (Rotate val shift).testBit i = val.testBit ((i + shift) % 64) := by
  unfold Rotate
  by_cases h0 : shift = 0
  · subst h0
    simp only [if_true, Nat.add_zero, Nat.mod_eq_of_lt hi]
  · simp only [h0, if_false, Nat.testBit_or, Nat.testBit_shiftRight, Nat.testBit_mod_two_pow,
      Nat.testBit_shiftLeft, hi, decide_True, Bool.true_and]
    by_cases hw : i + shift < 64
    · have h1 : ¬ i ≥ 64 - shift := by omega
      rw [Nat.mod_eq_of_lt hw, decide_eq_false h1, Bool.false_and, Bool.or_false,
        Nat.add_comm]
    · have h1 : i ≥ 64 - shift := by omega
      have h2 : (i + shift) % 64 = i - (64 - shift) := by omega
      rw [testBit_u64_high val (shift + i) hval (by omega), decide_eq_true h1, Bool.true_and,
        Bool.false_or, h2]

/-- Rotating by `shift` and then by `64 - shift` gives the word back. -/
theorem Rotate_Rotate (val shift : Nat) (hval : val < 2 ^ 64) (h0 : 0 < shift)
    (hshift : shift < 64) : Rotate (Rotate val shift) (64 - shift) = val := by
  apply Nat.eq_of_testBit_eq
  intro i
  by_cases hi : i < 64
  · rw [Rotate_testBit _ _ i (Rotate_lt val shift hval) (by omega) hi,
      Rotate_testBit val shift _ hval hshift (Nat.mod_lt _ (by decide))]
    congr 1
    omega
  · rw [testBit_u64_high _ i (Rotate_lt _ _ (Rotate_lt val shift hval)) (by omega),
      testBit_u64_high val i hval (by omega)]

/-- C24. The function `Rotate` (the same in both files) is a 64-bit right
rotation: for a 64-bit `val` and `shift < 64`, bit `i` of `Rotate(val, shift)`
is bit `(i + shift) mod 64` of `val` and the result is a 64-bit word;
`Rotate(val, 0) = val`; and for `0 < shift`, rotating the result by
`64 - shift` gives `val` back. -/
theorem C24_Rotate_is_right_rotation (val shift i : Nat) (hval : val < 2 ^ 64)
    (hshift : shift < 64) (hi : i < 64) :
    (Rotate val shift).testBit i = val.testBit ((i + shift) % 64) ∧
    Rotate val shift < 2 ^ 64 ∧
    Rotate val 0 = val ∧
    (0 < shift → Rotate (Rotate val shift) (64 - shift) = val) ∧
    direct.farmhash.Rotate val shift = Rotate val shift :=
  ⟨Rotate_testBit val shift i hval hshift hi, Rotate_lt val shift hval, rfl,
   fun h0 => Rotate_Rotate val shift hval h0 hshift, rfl⟩

set_option maxRecDepth 100000 in
/-- Witness of C24 on `k0` rotated by 37. -/
theorem C24_Rotate_is_right_rotation_witness :
    k0 < 2 ^ 64 ∧ 37 < 64 ∧ 5 < 64 ∧
    (Rotate k0 37).testBit 5 = k0.testBit ((5 + 37) % 64) ∧
    Rotate (Rotate k0 37) (64 - 37) = k0 :=
  ⟨by decide, by decide, by decide,
   (C24_Rotate_is_right_rotation k0 37 5 (by decide) (by decide) (by decide)).1,
   (C24_Rotate_is_right_rotation k0 37 5 (by decide) (by decide) (by decide)).2.2.2.1
     (by decide)⟩

end hashing
